import Mathlib

/-!
Verification of `firebase-admin-cloudflare` against its natural-language
specification.

This file shallowly embeds the parts of the TypeScript source that the
claims C1..C10 are about:

* the value codec `toFirestoreValue` / `fromFirestoreValue`
  (`src/firestore/rest/value.ts`),
* the write encoder `encodeSetData` / `encodeUpdateData`
  (`src/firestore/rest/write-encoding.ts`),
* the filter combinators `flattenComposite` / `Filter.and` / `Filter.or`
  and the `Query.where` combination logic (`src/firestore/filter.ts`,
  `src/firestore/firestore.ts`),
* the ordering resolution inside `Query._buildStructuredQueryRequest`
  (`src/firestore/firestore.ts`),
* `Firestore.runTransaction` retry loop and the `Transaction`
  read-before-write state machine (`src/firestore/firestore.ts`),
* the `BulkWriter` queue draining (`takeBatch` / `processQueue`)
  (`src/firestore/firestore.ts`),
* the listen message handler of `listenToDocument`
  (`src/firestore/listen/`), and
* `FirestoreRestClient.getDocument` + `DocumentReference.get`
  (`src/firestore/rest/client.ts`, `src/firestore/firestore.ts`).

Modelling conventions:

* JavaScript runtime values are the inductive `JSVal` below; plain objects
  are insertion-ordered association lists (mirroring `Object.entries`),
  and JS numbers are modelled as rationals (the claims only exercise the
  integral/safe-integer tests and exact equality on numbers; NaN/Infinity
  are not produced by any modelled code path).
* Wire values are the inductive `FSValue`.  Three wire slots that the
  source fills via injective JS built-ins are modelled by their preimage:
  `integerValue` carries the integer denoted by the decimal string
  (`String(n)` / `Number(s)` are inverse bijections on the strings the
  code produces), `bytesValue` carries the byte list denoted by the
  base64 string (`btoa` / `atob` are inverse), and `timestampValue`
  carries the epoch milliseconds denoted by the ISO-8601 string
  (`Date.prototype.toISOString` / `new Date(iso)` are inverse on the
  strings the code produces).
* Fallible TypeScript code (`throw`) is modelled with `Option`/`Except`:
  `none`/`.error` is a thrown exception.
-/

set_option maxHeartbeats 1000000

namespace FirebaseAdminCloudflare

/-! ## JavaScript value universe

`JSVal` covers every runtime value the embedded code inspects: the JSON
primitives, the wrapper classes `Timestamp`, `Date`, `Bytes`, `GeoPoint`,
`Uint8Array`, bigints, symbols, callables, arrays, plain objects, and the
seven `FieldValue` sentinels from `src/firestore/field-value.ts`.
`vUndef` is the JS `undefined` marker.  A `Timestamp` stores normalized
`seconds : Int` and `nanoseconds : Nat` (its constructor truncates and
checks `0 ≤ ns < 1e9`); a `Date` stores its epoch milliseconds. -/

mutual

inductive JSVal : Type where
  | vNull : JSVal
  | vUndef : JSVal
  | vBool (b : Bool) : JSVal
  | vNum (q : ℚ) : JSVal
  | vStr (s : String) : JSVal
  | vTimestamp (seconds : Int) (nanoseconds : Nat) : JSVal
  | vDate (ms : Int) : JSVal
  | vBytes (bs : List Nat) : JSVal
  | vUint8 (bs : List Nat) : JSVal
  | vGeo (latitude longitude : ℚ) : JSVal
  | vBigInt (n : Int) : JSVal
  | vSymbol (descr : String) : JSVal
  | vFunc : JSVal
  | vArr (xs : JSList) : JSVal
  | vMap (m : JSFields) : JSVal
  | vDelete : JSVal
  | vServerTimestamp : JSVal
  | vArrayUnion (elems : JSList) : JSVal
  | vArrayRemove (elems : JSList) : JSVal
  | vIncrement (operand : JSVal) : JSVal
  | vMaximum (operand : JSVal) : JSVal
  | vMinimum (operand : JSVal) : JSVal

inductive JSList : Type where
  | nil : JSList
  | cons (hd : JSVal) (tl : JSList) : JSList

inductive JSFields : Type where
  | nil : JSFields
  | fcons (k : String) (v : JSVal) (tl : JSFields) : JSFields

end

/-! ## Wire value universe (`FirestoreValue` in `rest/types.ts`) -/

mutual

inductive FSValue : Type where
  | nullValue : FSValue
  | booleanValue (b : Bool) : FSValue
  | integerValue (n : Int) : FSValue
  | doubleValue (q : ℚ) : FSValue
  | stringValue (s : String) : FSValue
  | bytesValue (bs : List Nat) : FSValue
  | timestampValue (ms : Int) : FSValue
  | referenceValue (name : String) : FSValue
  | geoPointValue (latitude longitude : ℚ) : FSValue
  | arrayValue (vs : FSList) : FSValue
  | mapValue (fields : FSFields) : FSValue

inductive FSList : Type where
  | nil : FSList
  | cons (hd : FSValue) (tl : FSList) : FSList

inductive FSFields : Type where
  | nil : FSFields
  | fcons (k : String) (v : FSValue) (tl : FSFields) : FSFields

end

/-- `Number.MAX_SAFE_INTEGER`. -/
def maxSafeInteger : Nat := 9007199254740991

/-- `Number.isInteger(q) && Number.isSafeInteger(q)` for a finite JS
number modelled as a rational. -/
def jsNumIsSafeInteger (q : ℚ) : Bool :=
  q.den == 1 && q.num.natAbs ≤ maxSafeInteger

/-- `Timestamp.prototype.toMillis`: `seconds * 1000 + Math.floor(ns / 1e6)`. -/
def timestampToMillis (seconds : Int) (nanoseconds : Nat) : Int :=
  seconds * 1000 + (nanoseconds / 1000000 : Nat)

/-- `Timestamp.fromMillis`: `seconds = Math.floor(ms / 1000)`,
`nanoseconds = (ms - seconds * 1000) * 1e6`.  `Int` division/remainder
here are floor-division/nonnegative-remainder for the positive divisor
1000, matching `Math.floor`. -/
def timestampFromMillis (ms : Int) : Int × Nat :=
  (ms / 1000, (ms % 1000).toNat * 1000000)

/-- `value === undefined`. -/
def isUndef : JSVal → Bool
  | .vUndef => true
  | _ => false

/-! ### `toFirestoreValue` (`src/firestore/rest/value.ts`, lines 27-98)

The branches appear in source order.  For arrays the source first throws
in strict mode when any entry is `undefined` and then encodes
`value.filter((e) => e !== undefined)`; the list encoder below walks the
entries once, erroring at an `undefined` entry in strict mode and
skipping it in lenient mode, which yields the same `Option` result.
`lenient` is `options.ignoreUndefinedProperties`. -/

mutual

def toFirestoreValue (lenient : Bool) : JSVal → Option FSValue
  | .vNull => some .nullValue
  | .vUndef => none
  | .vBool b => some (.booleanValue b)
  | .vNum q =>
      if jsNumIsSafeInteger q then some (.integerValue q.num)
      else some (.doubleValue q)
  | .vStr s => some (.stringValue s)
  | .vTimestamp sec ns => some (.timestampValue (timestampToMillis sec ns))
  | .vDate ms => some (.timestampValue ms)
  | .vBytes bs => some (.bytesValue bs)
  | .vGeo lat lng => some (.geoPointValue lat lng)
  | .vUint8 bs => some (.bytesValue bs)
  | .vArr xs => (toFirestoreValueList lenient xs).map .arrayValue
  | .vMap m => (toFirestoreValueFields lenient m).map .mapValue
  | .vBigInt n => some (.stringValue (toString n))
  | .vSymbol descr => some (.stringValue descr)
  | .vFunc => some (.stringValue "[function]")
  | .vDelete => none
  | .vServerTimestamp => none
  | .vArrayUnion _ => none
  | .vArrayRemove _ => none
  | .vIncrement _ => none
  | .vMaximum _ => none
  | .vMinimum _ => none

def toFirestoreValueList (lenient : Bool) : JSList → Option FSList
  | .nil => some .nil
  | .cons hd tl =>
      if isUndef hd then
        if lenient then toFirestoreValueList lenient tl else none
      else
        match toFirestoreValue lenient hd, toFirestoreValueList lenient tl with
        | some v, some vs => some (.cons v vs)
        | _, _ => none

def toFirestoreValueFields (lenient : Bool) : JSFields → Option FSFields
  | .nil => some .nil
  | .fcons k v tl =>
      if isUndef v then
        if lenient then toFirestoreValueFields lenient tl else none
      else
        match toFirestoreValue lenient v, toFirestoreValueFields lenient tl with
        | some w, some ws => some (.fcons k w ws)
        | _, _ => none

end

/-! ### `fromFirestoreValue` (`src/firestore/rest/value.ts`, lines 100-149)

On `integerValue` the source computes `Number(s)` and returns the string
unless the result is a finite safe integer; on `referenceValue` it
returns the raw resource-name string; on `timestampValue` it runs
`Timestamp.fromDate(new Date(iso))` (the invalid-date branch is
unreachable for the ISO strings modelled here). -/

mutual

def fromFirestoreValue : FSValue → JSVal
  | .nullValue => .vNull
  | .booleanValue b => .vBool b
  | .integerValue n =>
      if n.natAbs ≤ maxSafeInteger then .vNum (n : ℚ)
      else .vStr (toString n)
  | .doubleValue q => .vNum q
  | .stringValue s => .vStr s
  | .bytesValue bs => .vBytes bs
  | .timestampValue ms =>
      .vTimestamp (timestampFromMillis ms).1 (timestampFromMillis ms).2
  | .referenceValue name => .vStr name
  | .geoPointValue lat lng => .vGeo lat lng
  | .arrayValue vs => .vArr (fromFirestoreValueList vs)
  | .mapValue fields => .vMap (fromFirestoreValueFields fields)

def fromFirestoreValueList : FSList → JSList
  | .nil => .nil
  | .cons hd tl => .cons (fromFirestoreValue hd) (fromFirestoreValueList tl)

def fromFirestoreValueFields : FSFields → JSFields
  | .nil => .nil
  | .fcons k v tl => .fcons k (fromFirestoreValue v) (fromFirestoreValueFields tl)

end

/-! ### Which values round-trip

`roundTrippable` marks the values `v` for which
`fromFirestoreValue (toFirestoreValue v) = v`.  Compared with the full
set of encodable values it excludes: `Date` and `Uint8Array` inputs
(decoded as `Timestamp` resp. `Bytes`), bigints (the documented
decimal-string exception), symbols and callables (decoded as strings),
sentinels and `undefined` (not encodable), and timestamps whose
nanoseconds are not a whole number of milliseconds (truncated by
`toDate().toISOString()`). -/

mutual

def roundTrippable : JSVal → Bool
  | .vNull => true
  | .vBool _ => true
  | .vNum _ => true
  | .vStr _ => true
  | .vTimestamp _ ns => ns < 1000000000 && ns % 1000000 == 0
  | .vBytes _ => true
  | .vGeo _ _ => true
  | .vArr xs => roundTrippableList xs
  | .vMap m => roundTrippableFields m
  | _ => false

def roundTrippableList : JSList → Bool
  | .nil => true
  | .cons hd tl => roundTrippable hd && roundTrippableList tl

def roundTrippableFields : JSFields → Bool
  | .nil => true
  | .fcons _ v tl => roundTrippable v && roundTrippableFields tl

end

theorem jsNum_roundTrip (q : ℚ) (h : jsNumIsSafeInteger q = true) :
    ((q.num : Int) : ℚ) = q := by
  have hden : q.den = 1 := by
    have := h
    unfold jsNumIsSafeInteger at this
    simp only [Bool.and_eq_true, beq_iff_eq, decide_eq_true_eq] at this
    exact this.1
  exact_mod_cast Rat.den_eq_one_iff q |>.mp hden

theorem timestamp_millis_roundTrip (sec : Int) (ns : Nat)
    (hlt : ns < 1000000000) (hmod : ns % 1000000 = 0) :
    timestampFromMillis (timestampToMillis sec ns) = (sec, ns) := by
  unfold timestampFromMillis timestampToMillis
  have hk : (ns / 1000000 : Nat) < 1000 := by omega
  have hk0 : (0 : Int) ≤ ((ns / 1000000 : Nat) : Int) := by positivity
  have hk1 : ((ns / 1000000 : Nat) : Int) < 1000 := by exact_mod_cast hk
  have hdiv : (sec * 1000 + ((ns / 1000000 : Nat) : Int)) / 1000 = sec := by
    rw [add_comm, show (sec * 1000 : Int) = 1000 * sec by ring,
      Int.add_mul_ediv_left _ _ (by norm_num : (1000 : Int) ≠ 0),
      Int.ediv_eq_zero_of_lt hk0 hk1, zero_add]
  have hmodv : (sec * 1000 + ((ns / 1000000 : Nat) : Int)) % 1000
      = ((ns / 1000000 : Nat) : Int) := by
    rw [add_comm, show (sec * 1000 : Int) = 1000 * sec by ring,
      Int.add_mul_emod_self_left, Int.emod_eq_of_lt hk0 hk1]
  rw [hdiv, hmodv]
  simp only [Prod.mk.injEq, true_and, Int.toNat_natCast]
  omega

theorem roundTrippable_not_undef (v : JSVal) (h : roundTrippable v = true) :
    isUndef v = false := by
  cases v <;> simp_all [roundTrippable, isUndef]

mutual

theorem fromFirestoreValue_toFirestoreValue :
    ∀ (v : JSVal), roundTrippable v = true →
      (toFirestoreValue false v).map fromFirestoreValue = some v
  | .vNull, _ => by simp [toFirestoreValue, fromFirestoreValue]
  | .vBool b, _ => by simp [toFirestoreValue, fromFirestoreValue]
  | .vNum q, _ => by
      by_cases hq : jsNumIsSafeInteger q = true
      · have hle : q.num.natAbs ≤ maxSafeInteger := by
          unfold jsNumIsSafeInteger at hq
          simp only [Bool.and_eq_true, beq_iff_eq, decide_eq_true_eq] at hq
          exact hq.2
        simp [toFirestoreValue, hq, fromFirestoreValue, hle, jsNum_roundTrip q hq]
      · simp [toFirestoreValue, hq, fromFirestoreValue]
  | .vStr s, _ => by simp [toFirestoreValue, fromFirestoreValue]
  | .vTimestamp sec ns, h => by
      have hh : ns < 1000000000 ∧ ns % 1000000 = 0 := by
        simpa [roundTrippable] using h
      simp [toFirestoreValue, fromFirestoreValue,
        timestamp_millis_roundTrip sec ns hh.1 hh.2]
  | .vBytes bs, _ => by simp [toFirestoreValue, fromFirestoreValue]
  | .vGeo lat lng, _ => by simp [toFirestoreValue, fromFirestoreValue]
  | .vArr xs, h => by
      have hl : roundTrippableList xs = true := by simpa [roundTrippable] using h
      have ih := fromFirestoreValueList_toFirestoreValueList xs hl
      obtain ⟨ws, hws, hback⟩ := Option.map_eq_some'.mp ih
      simp [toFirestoreValue, hws, fromFirestoreValue, hback]
  | .vMap m, h => by
      have hm : roundTrippableFields m = true := by simpa [roundTrippable] using h
      have ih := fromFirestoreValueFields_toFirestoreValueFields m hm
      obtain ⟨ws, hws, hback⟩ := Option.map_eq_some'.mp ih
      simp [toFirestoreValue, hws, fromFirestoreValue, hback]
  | .vUndef, h => by simp [roundTrippable] at h
  | .vDate ms, h => by simp [roundTrippable] at h
  | .vUint8 bs, h => by simp [roundTrippable] at h
  | .vBigInt n, h => by simp [roundTrippable] at h
  | .vSymbol d, h => by simp [roundTrippable] at h
  | .vFunc, h => by simp [roundTrippable] at h
  | .vDelete, h => by simp [roundTrippable] at h
  | .vServerTimestamp, h => by simp [roundTrippable] at h
  | .vArrayUnion es, h => by simp [roundTrippable] at h
  | .vArrayRemove es, h => by simp [roundTrippable] at h
  | .vIncrement o, h => by simp [roundTrippable] at h
  | .vMaximum o, h => by simp [roundTrippable] at h
  | .vMinimum o, h => by simp [roundTrippable] at h

theorem fromFirestoreValueList_toFirestoreValueList :
    ∀ (xs : JSList), roundTrippableList xs = true →
      (toFirestoreValueList false xs).map fromFirestoreValueList = some xs
  | .nil, _ => by simp [toFirestoreValueList, fromFirestoreValueList]
  | .cons hd tl, h => by
      have h1 : roundTrippable hd = true := by
        have := h; simp [roundTrippableList, Bool.and_eq_true] at this; exact this.1
      have h2 : roundTrippableList tl = true := by
        have := h; simp [roundTrippableList, Bool.and_eq_true] at this; exact this.2
      have ih1 := fromFirestoreValue_toFirestoreValue hd h1
      have ih2 := fromFirestoreValueList_toFirestoreValueList tl h2
      obtain ⟨w, hw, hwb⟩ := Option.map_eq_some'.mp ih1
      obtain ⟨ws, hws, hwsb⟩ := Option.map_eq_some'.mp ih2
      simp [toFirestoreValueList, roundTrippable_not_undef hd h1, hw, hws,
        fromFirestoreValueList, hwb, hwsb]

theorem fromFirestoreValueFields_toFirestoreValueFields :
    ∀ (m : JSFields), roundTrippableFields m = true →
      (toFirestoreValueFields false m).map fromFirestoreValueFields = some m
  | .nil, _ => by simp [toFirestoreValueFields, fromFirestoreValueFields]
  | .fcons k v tl, h => by
      have h1 : roundTrippable v = true := by
        have := h; simp [roundTrippableFields, Bool.and_eq_true] at this; exact this.1
      have h2 : roundTrippableFields tl = true := by
        have := h; simp [roundTrippableFields, Bool.and_eq_true] at this; exact this.2
      have ih1 := fromFirestoreValue_toFirestoreValue v h1
      have ih2 := fromFirestoreValueFields_toFirestoreValueFields tl h2
      obtain ⟨w, hw, hwb⟩ := Option.map_eq_some'.mp ih1
      obtain ⟨ws, hws, hwsb⟩ := Option.map_eq_some'.mp ih2
      simp [toFirestoreValueFields, roundTrippable_not_undef v h1, hw, hws,
        fromFirestoreValueFields, hwb, hwsb]

end

/-! ## Claim C7: codec round-trip -/

/-- C7, counterexample.  The claim states that `decode(encode(v)) == v`
for every representable value, with unsafe-range integers as the sole
documented exception.  A `Timestamp` with sub-millisecond nanoseconds is
a representable value of the data model, is not an unsafe-range integer,
and yet does not round-trip: `toFirestoreValue` serializes it via
`toDate().toISOString()`, truncating `nanoseconds = 1` to `0`. -/
theorem toFirestoreValue_timestamp_truncates :
    (toFirestoreValue false (JSVal.vTimestamp 0 1)).map fromFirestoreValue
        = some (JSVal.vTimestamp 0 0) ∧
      (toFirestoreValue false (JSVal.vTimestamp 0 1)).map fromFirestoreValue
        ≠ some (JSVal.vTimestamp 0 1) := by
  constructor
  · simp [toFirestoreValue, timestampToMillis, fromFirestoreValue, timestampFromMillis]
  · simp [toFirestoreValue, timestampToMillis, fromFirestoreValue, timestampFromMillis]

/-- C7 (amended): `fromFirestoreValue ∘ toFirestoreValue` is the identity
on every representable value whose timestamps (if any, at any depth)
carry whole-millisecond nanoseconds — i.e. on everything `roundTrippable`
accepts: null, booleans, finite numbers, strings, byte sequences,
geographic points, millisecond-aligned timestamps, and arrays/maps
thereof.  Exceptions, as coded: integers outside the 53-bit safe range
(JS bigints) encode to their decimal string and decode to that string
(the documented exception), an unsafe `integerValue` arriving from the
server likewise decodes to its decimal-string form rather than a native
integer, and timestamps are truncated to millisecond precision. -/
theorem decode_encode_roundTrip :
    (∀ v : JSVal, roundTrippable v = true →
      (toFirestoreValue false v).map fromFirestoreValue = some v) ∧
    (∀ n : Int, (toFirestoreValue false (JSVal.vBigInt n)).map fromFirestoreValue
      = some (JSVal.vStr (toString n))) ∧
    (∀ n : Int, maxSafeInteger < n.natAbs →
      fromFirestoreValue (.integerValue n) = .vStr (toString n)) := by
  refine ⟨fromFirestoreValue_toFirestoreValue, ?_, ?_⟩
  · intro n
    simp [toFirestoreValue, fromFirestoreValue]
  · intro n hn
    simp [fromFirestoreValue, Nat.not_le.mpr hn]

/-- C7, witness: the round-trip theorem applied to a concrete nested
value and to the unsafe integer `2^53 + 1`. -/
theorem decode_encode_roundTrip_witness :
    (toFirestoreValue false
        (JSVal.vMap (.fcons "a"
          (JSVal.vArr (.cons (JSVal.vNum 1) (.cons (JSVal.vStr "x") .nil)))
          (.fcons "t" (JSVal.vTimestamp 5 2000000) .nil)))).map fromFirestoreValue
      = some (JSVal.vMap (.fcons "a"
          (JSVal.vArr (.cons (JSVal.vNum 1) (.cons (JSVal.vStr "x") .nil)))
          (.fcons "t" (JSVal.vTimestamp 5 2000000) .nil))) ∧
    fromFirestoreValue (.integerValue 9007199254740993)
      = .vStr (toString (9007199254740993 : Int)) := by
  refine ⟨decode_encode_roundTrip.1 _ (by decide), ?_⟩
  exact decode_encode_roundTrip.2.2 9007199254740993 (by norm_num [maxSafeInteger])

/-! ## Claim C9: encoding a host-language callable -/

/-- C9, counterexample.  The claim (and spec §4.1) state the encoder
throws for host-language callables; in the code
(`src/firestore/rest/value.ts` lines 94-97) `typeof value === 'function'`
is an explicit branch that returns `{ stringValue: '[function]' }`, so a
callable produces a wire value and no error is thrown. -/
theorem toFirestoreValue_function_not_error :
    toFirestoreValue false JSVal.vFunc = some (.stringValue "[function]") ∧
      toFirestoreValue false JSVal.vFunc ≠ none := by
  constructor
  · simp [toFirestoreValue]
  · simp [toFirestoreValue]

/-- C9 (amended): for a host-language callable the value encoder does
not throw; in both strict and lenient mode it produces the wire string
`"[function]"`.  (The final `throw new Error('Unsupported value type')`
is reached only by values matching none of the earlier branches, e.g.
class instances such as `FieldValue` sentinels.) -/
theorem toFirestoreValue_function (lenient : Bool) :
    toFirestoreValue lenient JSVal.vFunc = some (.stringValue "[function]") := by
  simp [toFirestoreValue]

/-! ## Write encoder (`src/firestore/rest/write-encoding.ts`)

`FieldValueKind` and `getFieldValueKind` are from
`src/firestore/field-value.ts`; the sentinels are the `vDelete`,
`vServerTimestamp`, `vArrayUnion`, `vArrayRemove`, `vIncrement`,
`vMaximum`, `vMinimum` constructors of `JSVal`. -/

inductive FieldValueKind : Type where
  | delete : FieldValueKind
  | serverTimestamp : FieldValueKind
  | arrayUnion : FieldValueKind
  | arrayRemove : FieldValueKind
  | increment : FieldValueKind
  | maximum : FieldValueKind
  | minimum : FieldValueKind
deriving DecidableEq

def getFieldValueKind : JSVal → Option FieldValueKind
  | .vDelete => some .delete
  | .vServerTimestamp => some .serverTimestamp
  | .vArrayUnion _ => some .arrayUnion
  | .vArrayRemove _ => some .arrayRemove
  | .vIncrement _ => some .increment
  | .vMaximum _ => some .maximum
  | .vMinimum _ => some .minimum
  | _ => none

/-- The `FieldTransform` union of `write-encoding.ts`. -/
inductive FieldTransform : Type where
  | setToServerValue (fieldPath : String) : FieldTransform
  | appendMissingElements (fieldPath : String) (values : FSList) : FieldTransform
  | removeAllFromArray (fieldPath : String) (values : FSList) : FieldTransform
  | increment (fieldPath : String) (operand : FSValue) : FieldTransform
  | maximum (fieldPath : String) (operand : FSValue) : FieldTransform
  | minimum (fieldPath : String) (operand : FSValue) : FieldTransform

/-- The `EncodedDocumentWrite` record: `updateMaskFieldPaths` and
`updateTransforms` are `none` where the source leaves them `undefined`. -/
structure EncodedDocumentWrite : Type where
  fields : FSFields
  updateMaskFieldPaths : Option (List String)
  updateTransforms : Option (List FieldTransform)

/-- `input.split('.')` on the character list of the string. -/
def splitDotGo : List Char → List Char → List String
  | [], acc => [String.mk acc.reverse]
  | c :: rest, acc =>
      if c = '.' then String.mk acc.reverse :: splitDotGo rest []
      else splitDotGo rest (c :: acc)

/-- `normalizeFieldPath` on a string input:
`input.split('.').filter((segment) => segment.length > 0)`. -/
def fieldPathSegments (input : String) : List String :=
  (splitDotGo input.data []).filter (fun segment => segment ≠ "")

/-- Association-list lookup on wire field maps. -/
def fieldsGet : FSFields → String → Option FSValue
  | .nil, _ => none
  | .fcons k v tl, key => if k = key then some v else fieldsGet tl key

/-- `fields[key] = value` on an insertion-ordered JS record: an existing
key is updated in place, a new key is appended. -/
def fieldsInsert : FSFields → String → FSValue → FSFields
  | .nil, key, value => .fcons key value .nil
  | .fcons k v tl, key, value =>
      if k = key then .fcons k value tl
      else .fcons k v (fieldsInsert tl key value)

/-- `setNestedField` (`write-encoding.ts` lines 50-71), including
`ensureMap`: descending through an existing `mapValue` reuses its field
map, anything else at an intermediate key is replaced by a fresh empty
map. -/
def setNestedField (fs : FSFields) : List String → FSValue → FSFields
  | [], _ => fs
  | [k], value => if k = "" then fs else fieldsInsert fs k value
  | k :: k2 :: rest, value =>
      if k = "" then fs
      else
        let child := match fieldsGet fs k with
          | some (.mapValue inner) => inner
          | _ => FSFields.nil
        fieldsInsert fs k (.mapValue (setNestedField child (k2 :: rest) value))

/-- ``currentPath ? `${currentPath}.${key}` : key``. -/
def childPath (currentPath key : String) : String :=
  if currentPath = "" then key else currentPath ++ "." ++ key

/-- `value.some((entry) => entry === undefined)`. -/
def jsListHasUndef : JSList → Bool
  | .nil => false
  | .cons hd tl => isUndef hd || jsListHasUndef tl

/-- Leaf paths contributed by the index properties of a `Uint8Array`
(the `Object.entries` of a typed array are its index/byte pairs, and
each byte is a number, hence a leaf). -/
def byteLeafPaths (currentPath : String) (bs : List Nat) : List String :=
  (List.range bs.length).map (fun i => childPath currentPath (toString i))

/-! ### `collectLeafFieldPaths` (`write-encoding.ts` lines 74-122)

Branch order as in the source: a sentinel, `null`, or a `Date` is a leaf;
`undefined` is skipped (lenient) or an error; any non-object
(number/string/boolean/bigint/symbol/function) is a leaf; an array is a
leaf (after the strict-mode `undefined`-entry check); every *other*
object — despite the source comment saying "Plain object" — is recursed
into via `Object.entries`.  For the class instances of this code base
that recursion is unfolded here: a `Timestamp` has own properties
`seconds`/`nanoseconds` (numbers, so leaves), a `GeoPoint` has
`latitude`/`longitude`, a `Bytes` has `bytes` (a `Uint8Array`, itself
recursed into its index properties), and a `Uint8Array` has its index
properties. -/

mutual

def collectLeafFieldPaths (lenient : Bool) : JSVal → String → Option (List String)
  | .vDelete, p => some [p]
  | .vServerTimestamp, p => some [p]
  | .vArrayUnion _, p => some [p]
  | .vArrayRemove _, p => some [p]
  | .vIncrement _, p => some [p]
  | .vMaximum _, p => some [p]
  | .vMinimum _, p => some [p]
  | .vNull, p => some [p]
  | .vDate _, p => some [p]
  | .vUndef, _ => if lenient then some [] else none
  | .vBool _, p => some [p]
  | .vNum _, p => some [p]
  | .vStr _, p => some [p]
  | .vBigInt _, p => some [p]
  | .vSymbol _, p => some [p]
  | .vFunc, p => some [p]
  | .vArr xs, p =>
      if lenient = false ∧ jsListHasUndef xs = true then none else some [p]
  | .vTimestamp _ _, p => some [childPath p "seconds", childPath p "nanoseconds"]
  | .vGeo _ _, p => some [childPath p "latitude", childPath p "longitude"]
  | .vBytes bs, p => some (byteLeafPaths (childPath p "bytes") bs)
  | .vUint8 bs, p => some (byteLeafPaths p bs)
  | .vMap m, p => collectLeafFieldPathsFields lenient m p

def collectLeafFieldPathsFields (lenient : Bool) : JSFields → String → Option (List String)
  | .nil, _ => some []
  | .fcons k v tl, p =>
      if isUndef v then
        if lenient then collectLeafFieldPathsFields lenient tl p else none
      else
        match collectLeafFieldPaths lenient v (childPath p k),
            collectLeafFieldPathsFields lenient tl p with
        | some ps, some rest => some (ps ++ rest)
        | _, _ => none

end

/-- `elements.map((entry) => toFirestoreValue(entry, options))`: unlike
array literals, transform element lists are not filtered — an
`undefined` element throws even in lenient mode. -/
def mapToFirestoreValues (lenient : Bool) : JSList → Option FSList
  | .nil => some .nil
  | .cons hd tl =>
      match toFirestoreValue lenient hd, mapToFirestoreValues lenient tl with
      | some v, some vs => some (.cons v vs)
      | _, _ => none

/-- `encodeFieldTransform` (`write-encoding.ts` lines 124-160). -/
def encodeFieldTransform (lenient : Bool) (fieldPath : String) :
    JSVal → Option FieldTransform
  | .vServerTimestamp => some (.setToServerValue fieldPath)
  | .vArrayUnion elems =>
      (mapToFirestoreValues lenient elems).map (.appendMissingElements fieldPath)
  | .vArrayRemove elems =>
      (mapToFirestoreValues lenient elems).map (.removeAllFromArray fieldPath)
  | .vIncrement operand =>
      (toFirestoreValue lenient operand).map (.increment fieldPath)
  | .vMaximum operand =>
      (toFirestoreValue lenient operand).map (.maximum fieldPath)
  | .vMinimum operand =>
      (toFirestoreValue lenient operand).map (.minimum fieldPath)
  | _ => none

/-- Mutable accumulator state of the encoder loops. -/
structure EncodeAcc : Type where
  fields : FSFields
  updateMaskFieldPaths : List String
  updateTransforms : List FieldTransform

def emptyEncodeAcc : EncodeAcc := ⟨.nil, [], []⟩

/-- `encodeUpdateEntry` (`write-encoding.ts` lines 162-196). -/
def encodeUpdateEntry (lenient : Bool) (acc : EncodeAcc) (fieldPath : String)
    (value : JSVal) : Option EncodeAcc :=
  let segments := fieldPathSegments fieldPath
  match getFieldValueKind value with
  | some .delete =>
      some { acc with updateMaskFieldPaths := acc.updateMaskFieldPaths ++ [fieldPath] }
  | some _ =>
      (encodeFieldTransform lenient fieldPath value).map fun t =>
        { acc with updateTransforms := acc.updateTransforms ++ [t] }
  | none =>
      (toFirestoreValue lenient value).map fun w =>
        { acc with
            updateMaskFieldPaths := acc.updateMaskFieldPaths ++ [fieldPath]
            fields := setNestedField acc.fields segments w }

/-- The `Object.entries(options.data)` loop of `encodeUpdateData`. -/
def encodeUpdateGo (lenient : Bool) (acc : EncodeAcc) : JSFields → Option EncodeAcc
  | .nil => some acc
  | .fcons k v tl =>
      if isUndef v then
        if lenient then encodeUpdateGo lenient acc tl else none
      else
        match encodeUpdateEntry lenient acc k v with
        | some acc2 => encodeUpdateGo lenient acc2 tl
        | none => none

/-- `encodeUpdateData` (`write-encoding.ts` lines 309-342). -/
def encodeUpdateData (lenient : Bool) (data : JSFields) :
    Option EncodedDocumentWrite :=
  (encodeUpdateGo lenient emptyEncodeAcc data).map fun acc =>
    { fields := acc.fields
      updateMaskFieldPaths := some acc.updateMaskFieldPaths
      updateTransforms :=
        if acc.updateTransforms.length > 0 then some acc.updateTransforms else none }

/-- `typeof value === 'object' && value !== null` for the merge-field
payload walk (arrays, plain objects, class instances and `FieldValue`
sentinels are objects; primitives, `undefined` and callables are not). -/
def jsIsObject : JSVal → Bool
  | .vMap _ => true
  | .vArr _ => true
  | .vTimestamp _ _ => true
  | .vDate _ => true
  | .vBytes _ => true
  | .vUint8 _ => true
  | .vGeo _ _ => true
  | .vDelete => true
  | .vServerTimestamp => true
  | .vArrayUnion _ => true
  | .vArrayRemove _ => true
  | .vIncrement _ => true
  | .vMaximum _ => true
  | .vMinimum _ => true
  | _ => false

/-- JS property lookup on object values. -/
def jsFieldsGet : JSFields → String → Option JSVal
  | .nil, _ => none
  | .fcons k v tl, key => if k = key then some v else jsFieldsGet tl key

/-- Index lookup `xs[key]` for a canonical numeric string key. -/
def jsListIndexGet (xs : JSList) (key : String) : Option JSVal :=
  jsListIndexGetGo xs key 0
where
  jsListIndexGetGo : JSList → String → Nat → Option JSVal
    | .nil, _, _ => none
    | .cons hd tl, key, i =>
        if toString i = key then some hd else jsListIndexGetGo tl key (i + 1)

def natListToJSList : List Nat → JSList
  | [] => .nil
  | b :: rest => .cons (.vNum b) (natListToJSList rest)

/-- `(value as Record<string, unknown>)[segment]` — own string-keyed
property access, per constructor (`none` is JS `undefined`).  The
`FieldValue` constructor assigns `elements`/`operand` even when the
option is absent, hence the explicit `vUndef` results. -/
def jsGetProp : JSVal → String → Option JSVal
  | .vMap m, key => jsFieldsGet m key
  | .vArr xs, key => jsListIndexGet xs key
  | .vTimestamp sec _, "seconds" => some (.vNum sec)
  | .vTimestamp _ ns, "nanoseconds" => some (.vNum ns)
  | .vGeo lat _, "latitude" => some (.vNum lat)
  | .vGeo _ lng, "longitude" => some (.vNum lng)
  | .vBytes bs, "bytes" => some (.vUint8 bs)
  | .vUint8 bs, key => jsListIndexGet (natListToJSList bs) key
  | .vDelete, "elements" => some .vUndef
  | .vDelete, "operand" => some .vUndef
  | .vServerTimestamp, "elements" => some .vUndef
  | .vServerTimestamp, "operand" => some .vUndef
  | .vArrayUnion elems, "elements" => some (.vArr elems)
  | .vArrayUnion _, "operand" => some .vUndef
  | .vArrayRemove elems, "elements" => some (.vArr elems)
  | .vArrayRemove _, "operand" => some .vUndef
  | .vIncrement operand, "operand" => some operand
  | .vIncrement _, "elements" => some .vUndef
  | .vMaximum operand, "operand" => some operand
  | .vMaximum _, "elements" => some .vUndef
  | .vMinimum operand, "operand" => some operand
  | .vMinimum _, "elements" => some .vUndef
  | _, _ => none

/-- The merge-field payload walk of `encodeSetData` (lines 216-223):
`for (const segment of segments) { if (value === null || typeof value
!== 'object') { value = undefined; break; } value = value[segment]; }`.
The result `none` is JS `undefined`. -/
def dataAtSegments : JSVal → List String → Option JSVal
  | v, [] => some v
  | v, k :: rest =>
      if v matches .vNull then none
      else if jsIsObject v then
        match jsGetProp v k with
        | some w => dataAtSegments w rest
        | none => none
      else none

/-- The `for (const fieldPathInput of mergeFields)` loop of
`encodeSetData` (lines 207-263). -/
def encodeSetMergeFieldsGo (lenient : Bool) (data : JSFields) (seen : List String)
    (acc : EncodeAcc) : List String → Option EncodeAcc
  | [] => some acc
  | fp :: rest =>
      if fp ∈ seen then encodeSetMergeFieldsGo lenient data seen acc rest
      else
        let seen2 := fp :: seen
        let segments := fieldPathSegments fp
        let found := dataAtSegments (.vMap data) segments
        match found with
        | none =>
            if lenient then encodeSetMergeFieldsGo lenient data seen2 acc rest
            else none
        | some .vUndef =>
            if lenient then encodeSetMergeFieldsGo lenient data seen2 acc rest
            else none
        | some v =>
            match getFieldValueKind v with
            | some .delete =>
                encodeSetMergeFieldsGo lenient data seen2
                  { acc with
                      updateMaskFieldPaths := acc.updateMaskFieldPaths ++ [fp] }
                  rest
            | some _ =>
                match encodeFieldTransform lenient fp v with
                | some t =>
                    encodeSetMergeFieldsGo lenient data seen2
                      { acc with updateTransforms := acc.updateTransforms ++ [t] }
                      rest
                | none => none
            | none =>
                match toFirestoreValue lenient v with
                | some w =>
                    encodeSetMergeFieldsGo lenient data seen2
                      { acc with
                          updateMaskFieldPaths := acc.updateMaskFieldPaths ++ [fp]
                          fields := setNestedField acc.fields segments w }
                      rest
                | none => none

/-- The `Object.entries(data)` loop of `encodeSetData` (lines 272-303). -/
def encodeSetGo (merge lenient : Bool) (acc : EncodeAcc) : JSFields → Option EncodeAcc
  | .nil => some acc
  | .fcons key v tl =>
      if isUndef v then
        if lenient then encodeSetGo merge lenient acc tl else none
      else
        match getFieldValueKind v with
        | some .delete =>
            encodeSetGo merge lenient
              (if merge then
                { acc with updateMaskFieldPaths := acc.updateMaskFieldPaths ++ [key] }
              else acc) tl
        | some _ =>
            match encodeFieldTransform lenient key v with
            | some t =>
                encodeSetGo merge lenient
                  { acc with updateTransforms := acc.updateTransforms ++ [t] } tl
            | none => none
        | none =>
            if merge then
              match toFirestoreValue lenient v,
                  collectLeafFieldPaths lenient v key with
              | some w, some leafPaths =>
                  encodeSetGo merge lenient
                    { acc with
                        fields := setNestedField acc.fields (fieldPathSegments key) w
                        updateMaskFieldPaths := acc.updateMaskFieldPaths ++ leafPaths }
                    tl
              | _, _ => none
            else
              match toFirestoreValue lenient v with
              | some w =>
                  encodeSetGo merge lenient
                    { acc with fields := fieldsInsert acc.fields key w } tl
              | none => none

/-- `encodeSetData` (`write-encoding.ts` lines 198-307).  The merge-field
branch is taken for `mergeFields && mergeFields.length > 0`. -/
def encodeSetData (merge : Bool) (mergeFields : Option (List String))
    (lenient : Bool) (data : JSFields) : Option EncodedDocumentWrite :=
  match mergeFields with
  | some mfs =>
      if mfs.length > 0 then
        (encodeSetMergeFieldsGo lenient data [] emptyEncodeAcc mfs).map fun acc =>
          { fields := acc.fields
            updateMaskFieldPaths := some acc.updateMaskFieldPaths
            updateTransforms :=
              if acc.updateTransforms.length > 0 then some acc.updateTransforms
              else none }
      else encodeSetMain merge lenient data
  | none => encodeSetMain merge lenient data
where
  encodeSetMain (merge lenient : Bool) (data : JSFields) :
      Option EncodedDocumentWrite :=
    (encodeSetGo merge lenient emptyEncodeAcc data).map fun acc =>
      { fields := acc.fields
        updateMaskFieldPaths :=
          if merge then some acc.updateMaskFieldPaths else none
        updateTransforms :=
          if acc.updateTransforms.length > 0 then some acc.updateTransforms
          else none }

/-! ## Claim C3: field-mask computation of `encodeSet` / `encodeUpdate` -/

/-- C3.  The two examples of the claim hold exactly as stated:
`encodeSet({a:{x:1,y:2}}, merge=true)` yields the leaf mask
`["a.x","a.y"]` (not `["a"]`), and `encodeUpdate({"a.x":1})` yields the
verbatim mask `["a.x"]` with the value nested into the field map at
`a.x` (not a flat key).  The third conjunct evaluates the code at the
failing input for the claim's universal statement: for the payload
`{a: new Timestamp(1,2)}` (a timestamp is a single leaf value of the
data model, so the claimed leaf mask is `["a"]`),
`collectLeafFieldPaths` — whose own comment says "Plain object: recurse
into leaves" but which recurses into every non-`Date` object — walks the
`Timestamp` instance's own properties and emits
`["a.seconds","a.nanoseconds"]`, while the encoded field map holds a
single `timestampValue` at `a`. -/
theorem encodeSet_encodeUpdate_fieldMask :
    ((encodeSetData true none false
        (.fcons "a" (.vMap (.fcons "x" (.vNum 1) (.fcons "y" (.vNum 2) .nil))) .nil)).map
        EncodedDocumentWrite.updateMaskFieldPaths = some (some ["a.x", "a.y"]) ∧
      some (some ["a.x", "a.y"]) ≠ some (some ["a"])) ∧
    encodeUpdateData false (.fcons "a.x" (.vNum 1) .nil)
      = some
          { fields := .fcons "a" (.mapValue (.fcons "x" (.integerValue 1) .nil)) .nil
            updateMaskFieldPaths := some ["a.x"]
            updateTransforms := none } ∧
    ((encodeSetData true none false (.fcons "a" (.vTimestamp 1 2) .nil)).map
        EncodedDocumentWrite.updateMaskFieldPaths
      = some (some ["a.seconds", "a.nanoseconds"]) ∧
      (encodeSetData true none false (.fcons "a" (.vTimestamp 1 2) .nil)).map
        EncodedDocumentWrite.fields
      = some (.fcons "a" (.timestampValue 1000) .nil)) := by
  refine ⟨⟨?_, by simp⟩, ?_, ?_, ?_⟩ <;> rfl

/-! ## Listen engine (`src/firestore/listen/`)

`ListenMsg` are the inbound WebChannel frames: the error shape matched
by `WebChannelErrorSchema` first, then the `ListenResponseSchema` union
(`targetChange` / `documentChange` / `documentDelete` / `documentRemove`
/ `filter`); a frame matching neither parse is ignored.  `targetKind`
carries `targetChangeType` (e.g. `"CURRENT"`, `"NO_CHANGE"`).  Outputs
are the subscriber-visible callbacks fired by the `onMessage` handler of
`listenToDocument`: `onNext` events (`{exists, data}`) and `onError`. -/

inductive ListenMsg : Type where
  | channelError (status message : String) : ListenMsg
  | targetChange (targetKind : String) : ListenMsg
  | documentChange (fields : FSFields) : ListenMsg
  | documentDelete (documentName : String) : ListenMsg
  | documentRemove (documentName : String) : ListenMsg
  | filterMsg (targetId : Int) : ListenMsg
  | unparseable : ListenMsg

inductive ListenOut : Type where
  | next (docExists : Bool) (data : Option JSFields) : ListenOut
  | err (status : String) : ListenOut

/-- `decodeDocumentFields`: decode each wire field with
`fromFirestoreValue`. -/
def decodeDocumentFields : FSFields → JSFields
  | .nil => .nil
  | .fcons k v tl => .fcons k (fromFirestoreValue v) (decodeDocumentFields tl)

/-- One `onMessage` invocation of `listenToDocument`
(`src/firestore/listen/`, the handler the claim cites): given the
`closed` flag, returns the new `closed` flag and the callbacks fired.
An error frame fires `onError` and closes the channel (`listener.close()`
runs `onClose`, which sets `closed`); a `documentChange` immediately
fires `onNext({exists: true, data})`; `documentDelete`/`documentRemove`
immediately fire `onNext({exists: false, data: null})`; a
`targetChange` — of any `targetChangeType`, including `CURRENT` and
`NO_CHANGE` — and a `filter` frame fall through every branch and fire
nothing. -/
def listenOnMessage (closed : Bool) (msg : ListenMsg) : Bool × List ListenOut :=
  if closed then (closed, [])
  else
    match msg with
    | .channelError status _ => (true, [.err status])
    | .documentChange fields => (closed, [.next true (some (decodeDocumentFields fields))])
    | .documentDelete _ => (closed, [.next false none])
    | .documentRemove _ => (closed, [.next false none])
    | .targetChange _ => (closed, [])
    | .filterMsg _ => (closed, [])
    | .unparseable => (closed, [])

/-- Fold `listenOnMessage` over an inbound frame sequence, collecting
every subscriber callback in order. -/
def listenRun (closed : Bool) : List ListenMsg → List ListenOut
  | [] => []
  | msg :: rest =>
      let step := listenOnMessage closed msg
      step.2 ++ listenRun step.1 rest

/-! ## Claim C1: settle-point buffering of document subscriptions -/

/-- C1, counterexample.  The claim states a snapshot reaches the
subscriber only at a settle point (a `CURRENT` target-state event, or
`NO_CHANGE` after the first `CURRENT`) and that change events in between
are buffered.  In the code a single `documentChange` frame — with no
`CURRENT` ever arriving — immediately produces an `onNext` snapshot, so
the emission list is nonempty where the claim requires it to be empty. -/
theorem listen_emits_before_current :
    listenRun false [.documentChange (.fcons "a" (.integerValue 1) .nil)]
        = [.next true (some (.fcons "a" (.vNum 1) .nil))] ∧
      listenRun false [.documentChange (.fcons "a" (.integerValue 1) .nil)] ≠ [] := by
  constructor
  · rfl
  · simp [listenRun, listenOnMessage]

/-- C1 (amended): the document-subscription handler has no settle-point
buffering at all.  On an open channel every `documentChange` frame
immediately fires exactly one `onNext` snapshot carrying the decoded
fields, every `documentDelete`/`documentRemove` immediately fires exactly
one non-existent snapshot, and every target-state event (`CURRENT`,
`NO_CHANGE`, or any other kind) fires nothing — target-state frames are
ignored rather than treated as emission points. -/
theorem listen_document_emission (fields : FSFields) (kind docName : String) :
    listenOnMessage false (.documentChange fields)
        = (false, [.next true (some (decodeDocumentFields fields))]) ∧
      listenOnMessage false (.documentDelete docName) = (false, [.next false none]) ∧
      listenOnMessage false (.documentRemove docName) = (false, [.next false none]) ∧
      listenOnMessage false (.targetChange kind) = (false, []) := by
  exact ⟨rfl, rfl, rfl, rfl⟩

/-! ## Transaction handle (`firestore.ts`, `class Transaction`)

The handle's mutable state is `writes` (the buffered wire writes) and
`didWrite`.  `get` throws *before* its `batchGetDocuments` network call
when `didWrite` is set; `set`/`create`/`update`/`delete` unconditionally
set `didWrite` and buffer a write — none of them inspects whether a read
has happened. -/

inductive TxWrite : Type where
  | set (path : String) : TxWrite
  | create (path : String) : TxWrite
  | update (path : String) : TxWrite
  | del (path : String) : TxWrite

inductive TxOp : Type where
  | get (path : String) : TxOp
  | set (path : String) : TxOp
  | create (path : String) : TxOp
  | update (path : String) : TxOp
  | del (path : String) : TxOp

structure TxState : Type where
  didWrite : Bool
  writes : List TxWrite

def txInit : TxState := ⟨false, []⟩

def readAfterWriteMsg : String :=
  "Firestore transactions require all reads to be performed before writes."

/-- One method call on the `Transaction` handle: either a thrown
validation error, or the updated handle state plus the network calls the
method performed. -/
def transactionStep (s : TxState) : TxOp → Except String (TxState × List String)
  | .get path =>
      if s.didWrite then .error readAfterWriteMsg
      else .ok (s, ["batchGetDocuments " ++ path])
  | .set path => .ok ({ didWrite := true, writes := s.writes ++ [.set path] }, [])
  | .create path => .ok ({ didWrite := true, writes := s.writes ++ [.create path] }, [])
  | .update path => .ok ({ didWrite := true, writes := s.writes ++ [.update path] }, [])
  | .del path => .ok ({ didWrite := true, writes := s.writes ++ [.del path] }, [])

structure TxRunResult : Type where
  thrown : Option String
  state : TxState
  networkCalls : List String

/-- Run a call sequence against one `Transaction` handle, stopping at the
first thrown error (a thrown call contributes no network calls). -/
def transactionRun (s : TxState) : List TxOp → TxRunResult
  | [] => ⟨none, s, []⟩
  | op :: rest =>
      match transactionStep s op with
      | .error e => ⟨some e, s, []⟩
      | .ok (s2, calls) =>
          let r := transactionRun s2 rest
          ⟨r.thrown, r.state, calls ++ r.networkCalls⟩

def txOpIsGet : TxOp → Bool
  | .get _ => true
  | _ => false

theorem transactionStep_write_sets_didWrite (s : TxState) (op : TxOp)
    (h : txOpIsGet op = false) :
    ∃ s2 : TxState, transactionStep s op = .ok (s2, []) ∧ s2.didWrite = true := by
  cases op with
  | get p => simp [txOpIsGet] at h
  | set p => exact ⟨_, rfl, rfl⟩
  | create p => exact ⟨_, rfl, rfl⟩
  | update p => exact ⟨_, rfl, rfl⟩
  | del p => exact ⟨_, rfl, rfl⟩

theorem transactionRun_get_after_didWrite (ops : List TxOp) :
    ∀ s : TxState, s.didWrite = true → ops.any txOpIsGet = true →
      (transactionRun s ops).thrown = some readAfterWriteMsg := by
  induction ops with
  | nil => intro s _ hany; simp at hany
  | cons op rest ih =>
      intro s hdw hany
      cases op with
      | get p => simp [transactionRun, transactionStep, hdw]
      | set p =>
          have hany2 : rest.any txOpIsGet = true := by simpa [txOpIsGet] using hany
          simpa [transactionRun, transactionStep]
            using ih ⟨true, s.writes ++ [.set p]⟩ rfl hany2
      | create p =>
          have hany2 : rest.any txOpIsGet = true := by simpa [txOpIsGet] using hany
          simpa [transactionRun, transactionStep]
            using ih ⟨true, s.writes ++ [.create p]⟩ rfl hany2
      | update p =>
          have hany2 : rest.any txOpIsGet = true := by simpa [txOpIsGet] using hany
          simpa [transactionRun, transactionStep]
            using ih ⟨true, s.writes ++ [.update p]⟩ rfl hany2
      | del p =>
          have hany2 : rest.any txOpIsGet = true := by simpa [txOpIsGet] using hany
          simpa [transactionRun, transactionStep]
            using ih ⟨true, s.writes ++ [.del p]⟩ rfl hany2

/-! ## Claim C2: write-after-read rejection -/

/-- C2, counterexample.  The claim states that a write invoked after a
read has been attempted is rejected synchronously.  Running
`get("col/doc")` followed by `set("col/doc")` on a fresh handle throws
nothing: the set is accepted and buffered (the write methods never
consult whether a read happened). -/
theorem transaction_write_after_read_accepted :
    transactionRun txInit [.get "col/doc", .set "col/doc"]
        = ⟨none, ⟨true, [.set "col/doc"]⟩, ["batchGetDocuments col/doc"]⟩ ∧
      (transactionRun txInit [.get "col/doc", .set "col/doc"]).thrown = none := by
  exact ⟨rfl, rfl⟩

/-- C2 (amended): the ordering constraint the code enforces is the
converse one — reads strictly before writes means a *read* attempted
after any buffered write is rejected synchronously, with the validation
error thrown before the read's `batchGetDocuments` network call, while
write calls (`set`/`create`/`update`/`delete`) are always accepted
locally.  Consequently any call sequence containing a write followed
(anywhere later) by a read throws exactly this validation error. -/
theorem transaction_read_after_write_rejected :
    (∀ (s : TxState) (path : String), s.didWrite = true →
      transactionStep s (.get path) = .error readAfterWriteMsg) ∧
    (∀ (s : TxState) (op : TxOp), txOpIsGet op = false →
      ∃ s2 : TxState, transactionStep s op = .ok (s2, []) ∧ s2.didWrite = true) ∧
    (∀ (pre rest : List TxOp) (w : TxOp), txOpIsGet w = false →
      rest.any txOpIsGet = true → (transactionRun txInit pre).thrown = none →
      (transactionRun txInit (pre ++ w :: rest)).thrown = some readAfterWriteMsg) := by
  refine ⟨?_, transactionStep_write_sets_didWrite, ?_⟩
  · intro s path h
    simp [transactionStep, h]
  · have hsplit : ∀ (l : List TxOp) (s : TxState),
        (transactionRun s l).thrown = none →
        ∀ l2, transactionRun s (l ++ l2)
          = ⟨(transactionRun (transactionRun s l).state l2).thrown,
             (transactionRun (transactionRun s l).state l2).state,
             (transactionRun s l).networkCalls
               ++ (transactionRun (transactionRun s l).state l2).networkCalls⟩ := by
      intro l
      induction l with
      | nil => intro s _ l2; simp [transactionRun]
      | cons op tl ih =>
          intro s hok l2
          cases hstep : transactionStep s op with
          | error e => simp [transactionRun, hstep] at hok
          | ok out =>
              have hok2 : (transactionRun out.1 tl).thrown = none := by
                simpa [transactionRun, hstep] using hok
              simp [transactionRun, hstep, List.cons_append, ih out.1 hok2 l2]
    intro pre rest w hw hget hpre
    rw [hsplit pre _ hpre (w :: rest)]
    obtain ⟨s2, hstep, hdw⟩ :=
      transactionStep_write_sets_didWrite (transactionRun txInit pre).state w hw
    simp only [transactionRun, hstep]
    exact transactionRun_get_after_didWrite rest s2 hdw hget

/-- C2, witness: the amended theorem applied to the concrete sequence
`set` then `get` (and the step-level facts at a written-state handle). -/
theorem transaction_read_after_write_rejected_witness :
    transactionStep ⟨true, [.set "col/doc"]⟩ (.get "col/doc")
        = .error readAfterWriteMsg ∧
      (transactionRun txInit [.set "col/doc", .get "col/doc"]).thrown
        = some readAfterWriteMsg := by
  constructor
  · exact transaction_read_after_write_rejected.1 ⟨true, [.set "col/doc"]⟩ "col/doc" rfl
  · exact transaction_read_after_write_rejected.2.2 [] [.get "col/doc"] (.set "col/doc")
      rfl rfl rfl

/-! ## Filter tree (`src/firestore/filter.ts`) and `Query.where`

`FilterNode` is the source union: a leaf `(fieldPath, op, value)` or a
composite `(AND|OR, children)`.  `filterAnd`/`filterOr` are
`Filter.and`/`Filter.or` (throwing — `none` — on fewer than two
arguments); `whereCombine` is the filter-combination expression inside
`Query.where` (`firestore.ts` lines 744-785). -/

inductive CompOp : Type where
  | and : CompOp
  | or : CompOp
deriving DecidableEq

inductive FilterNode : Type where
  | field (fieldPath : String) (op : String) (value : JSVal) : FilterNode
  | composite (op : CompOp) (filters : List FilterNode) : FilterNode

/-- `flattenComposite` (`filter.ts` lines 35-45): splice the children of
a direct same-kind composite child, keep everything else. -/
def flattenComposite (op : CompOp) : List FilterNode → List FilterNode
  | [] => []
  | .composite op2 fs :: rest =>
      if op2 = op then fs ++ flattenComposite op rest
      else .composite op2 fs :: flattenComposite op rest
  | n :: rest => n :: flattenComposite op rest

/-- `Filter.and`. -/
def filterAnd (fs : List FilterNode) : Option FilterNode :=
  if fs.length < 2 then none
  else some (.composite .and (flattenComposite .and fs))

/-- `Filter.or`. -/
def filterOr (fs : List FilterNode) : Option FilterNode :=
  if fs.length < 2 then none
  else some (.composite .or (flattenComposite .or fs))

/-- The `combined` expression of `Query.where`: merge AND children with
AND children, otherwise wrap both sides in a top-level AND. -/
def whereCombine : Option FilterNode → FilterNode → FilterNode
  | none, nxt => nxt
  | some cur, nxt =>
      match cur with
      | .composite .and curFs =>
          match nxt with
          | .composite .and nxtFs => .composite .and (curFs ++ nxtFs)
          | _ => .composite .and (curFs ++ [nxt])
      | _ =>
          match nxt with
          | .composite .and nxtFs => .composite .and (cur :: nxtFs)
          | _ => .composite .and [cur, nxt]

/-- Is this node a composite of the given kind? -/
def sameKindComposite (op : CompOp) : FilterNode → Bool
  | .composite op2 _ => op2 = op
  | _ => false

/-! No composite node anywhere in the tree may have a direct child that
is a composite of the same kind. -/

mutual

def noNest : FilterNode → Bool
  | .field _ _ _ => true
  | .composite op fs => noNestList op fs

def noNestList (op : CompOp) : List FilterNode → Bool
  | [] => true
  | f :: rest => !sameKindComposite op f && noNest f && noNestList op rest

end

theorem noNestList_append (op : CompOp) (l1 l2 : List FilterNode) :
    noNestList op (l1 ++ l2) = (noNestList op l1 && noNestList op l2) := by
  induction l1 with
  | nil => simp [noNestList]
  | cons f rest ih => simp [noNestList, ih, Bool.and_assoc]

theorem noNestList_iff (op : CompOp) (l : List FilterNode) :
    noNestList op l = true ↔
      ∀ g ∈ l, sameKindComposite op g = false ∧ noNest g = true := by
  induction l with
  | nil => simp [noNestList]
  | cons f rest ih =>
      simp [noNestList, Bool.and_eq_true, ih, List.forall_mem_cons]

theorem noNestList_flattenComposite (op : CompOp) (fs : List FilterNode)
    (h : ∀ f ∈ fs, noNest f = true) :
    noNestList op (flattenComposite op fs) = true := by
  induction fs with
  | nil => simp [flattenComposite, noNestList]
  | cons f rest ih =>
      have hf : noNest f = true := h f (List.mem_cons_self f rest)
      have hr := ih (fun g hg => h g (List.mem_cons_of_mem f hg))
      cases f with
      | field p o v =>
          simp [flattenComposite, noNestList, sameKindComposite, noNest, hr]
      | composite op2 gs =>
          by_cases hop : op2 = op
          · subst hop
            have hgs : noNestList op2 gs = true := by simpa [noNest] using hf
            simp [flattenComposite, noNestList_append, hgs, hr]
          · simp [flattenComposite, hop, noNestList, sameKindComposite, hf, hr]

/-- The filters constructible through the public API: `Filter.where`
leaves, `Filter.and`/`Filter.or` of at least two built filters, and the
`Query.where` combination of built filters. -/
inductive BuiltFilter : FilterNode → Prop where
  | leaf (fieldPath op : String) (value : JSVal) :
      BuiltFilter (.field fieldPath op value)
  | and (fs : List FilterNode) (h2 : 2 ≤ fs.length)
      (h : ∀ f ∈ fs, BuiltFilter f) :
      BuiltFilter (.composite .and (flattenComposite .and fs))
  | or (fs : List FilterNode) (h2 : 2 ≤ fs.length)
      (h : ∀ f ∈ fs, BuiltFilter f) :
      BuiltFilter (.composite .or (flattenComposite .or fs))
  | combine (cur nxt : FilterNode) (hc : BuiltFilter cur) (hn : BuiltFilter nxt) :
      BuiltFilter (whereCombine (some cur) nxt)

theorem noNest_whereCombine (cur nxt : FilterNode)
    (hc : noNest cur = true) (hn : noNest nxt = true) :
    noNest (whereCombine (some cur) nxt) = true := by
  cases cur with
  | field p o v =>
      cases nxt with
      | field p2 o2 v2 =>
          simp [whereCombine, noNest, noNestList, sameKindComposite]
      | composite op2 gs =>
          cases op2 with
          | and =>
              have hgs : noNestList .and gs = true := by simpa [noNest] using hn
              simp [whereCombine, noNest, noNestList, sameKindComposite, hgs]
          | or =>
              have hgs : noNestList .or gs = true := by simpa [noNest] using hn
              simp [whereCombine, noNest, noNestList, sameKindComposite, hgs]
  | composite opc curFs =>
      cases opc with
      | and =>
          have hcur : noNestList .and curFs = true := by simpa [noNest] using hc
          cases nxt with
          | field p2 o2 v2 =>
              simp [whereCombine, noNest, noNestList_append, hcur, noNestList,
                sameKindComposite]
          | composite op2 gs =>
              cases op2 with
              | and =>
                  have hgs : noNestList .and gs = true := by simpa [noNest] using hn
                  simp [whereCombine, noNest, noNestList_append, hcur, hgs]
              | or =>
                  have hgs : noNestList .or gs = true := by simpa [noNest] using hn
                  simp [whereCombine, noNest, noNestList_append, hcur, noNestList,
                    sameKindComposite, hgs]
      | or =>
          have hcur : noNestList .or curFs = true := by simpa [noNest] using hc
          cases nxt with
          | field p2 o2 v2 =>
              simp [whereCombine, noNest, noNestList, sameKindComposite, hcur]
          | composite op2 gs =>
              cases op2 with
              | and =>
                  have hgs : noNestList .and gs = true := by simpa [noNest] using hn
                  simp [whereCombine, noNest, noNestList, sameKindComposite, hcur, hgs]
              | or =>
                  have hgs : noNestList .or gs = true := by simpa [noNest] using hn
                  simp [whereCombine, noNest, noNestList, sameKindComposite, hcur, hgs]

theorem builtFilter_noNest (f : FilterNode) (h : BuiltFilter f) : noNest f = true := by
  induction h with
  | leaf p o v => simp [noNest]
  | and fs h2 h ih => simpa [noNest] using noNestList_flattenComposite .and fs ih
  | or fs h2 h ih => simpa [noNest] using noNestList_flattenComposite .or fs ih
  | combine cur nxt hc hn ihc ihn => exact noNest_whereCombine cur nxt ihc ihn

/-! ## Claim C8: filter flattening -/

/-- C8.  First conjunct: the claim's concrete scenario.
`Filter.and(a,b)` builds `AND[a,b]`; `Filter.or(AND[a,b], c)` builds
`OR[AND[a,b], c]` (an AND child of an OR is kept, not spliced); a
further `.where(d)` produces the single top-level
`AND[OR[AND[a,b],c], d]` — never doubly-nested ANDs.  Second conjunct:
every filter reachable through the public API (`Filter.where`,
`Filter.and`/`Filter.or`, repeated `Query.where`) has no composite node
with a direct child composite of the same kind, because
`flattenComposite` splices same-kind children into the parent list. -/
theorem filter_flattening (pa oa pb ob pc oc pd od : String)
    (va vb vc vd : JSVal) :
    (filterAnd [.field pa oa va, .field pb ob vb]
        = some (.composite .and [.field pa oa va, .field pb ob vb]) ∧
      filterOr [.composite .and [.field pa oa va, .field pb ob vb], .field pc oc vc]
        = some (.composite .or
            [.composite .and [.field pa oa va, .field pb ob vb], .field pc oc vc]) ∧
      whereCombine
          (some (.composite .or
            [.composite .and [.field pa oa va, .field pb ob vb], .field pc oc vc]))
          (.field pd od vd)
        = .composite .and
            [.composite .or
              [.composite .and [.field pa oa va, .field pb ob vb], .field pc oc vc],
              .field pd od vd]) ∧
    (∀ f : FilterNode, BuiltFilter f → noNest f = true) := by
  refine ⟨⟨rfl, rfl, rfl⟩, ?_⟩
  intro f hf
  exact builtFilter_noNest f hf

/-- C8, witness: the flattening invariant applied to the concrete filter
of the claim's scenario, built through the API constructors. -/
theorem filter_flattening_witness :
    noNest (whereCombine
      (some (.composite .or
        [.composite .and [.field "a" "==" JSVal.vNull, .field "b" "==" JSVal.vNull],
          .field "c" "==" JSVal.vNull]))
      (.field "d" "==" JSVal.vNull)) = true := by
  have hab : BuiltFilter (.composite .and
      [FilterNode.field "a" "==" JSVal.vNull, FilterNode.field "b" "==" JSVal.vNull]) := by
    have hmem : ∀ f ∈ [FilterNode.field "a" "==" JSVal.vNull,
        FilterNode.field "b" "==" JSVal.vNull], BuiltFilter f := by
      intro f hf
      rcases List.mem_cons.mp hf with h | hf
      · subst h; exact BuiltFilter.leaf _ _ _
      rcases List.mem_cons.mp hf with h | hf
      · subst h; exact BuiltFilter.leaf _ _ _
      · simp at hf
    exact BuiltFilter.and _ (by simp) hmem
  have hor : BuiltFilter (.composite .or
      [FilterNode.composite .and
        [FilterNode.field "a" "==" JSVal.vNull, FilterNode.field "b" "==" JSVal.vNull],
        FilterNode.field "c" "==" JSVal.vNull]) := by
    have hmem : ∀ f ∈ [FilterNode.composite .and
        [FilterNode.field "a" "==" JSVal.vNull, FilterNode.field "b" "==" JSVal.vNull],
        FilterNode.field "c" "==" JSVal.vNull], BuiltFilter f := by
      intro f hf
      rcases List.mem_cons.mp hf with h | hf
      · subst h; exact hab
      rcases List.mem_cons.mp hf with h | hf
      · subst h; exact BuiltFilter.leaf _ _ _
      · simp at hf
    exact BuiltFilter.or _ (by simp) hmem
  exact (filter_flattening "a" "==" "b" "==" "c" "==" "d" "=="
      JSVal.vNull JSVal.vNull JSVal.vNull JSVal.vNull).2 _
    (BuiltFilter.combine _ _ hor (BuiltFilter.leaf _ _ _))

/-! ## Query builder state and ordering resolution (`firestore.ts`)

`QueryState` mirrors the private fields of `class Query`; each builder
method returns a new state (the class is immutable).  Cursor constraints
are modelled in their `values` form (`parseCursorConstraint` wraps the
argument list; the `DocumentSnapshot` cursor variant only changes how
bound *values* are later expanded, not whether a bound is present, which
is all the ordering resolution inspects). -/

inductive OrderDirection : Type where
  | asc : OrderDirection
  | desc : OrderDirection
deriving DecidableEq

structure OrderClause : Type where
  fieldPath : String
  direction : OrderDirection
deriving DecidableEq

inductive CursorConstraint : Type where
  | values (inclusive : Bool) (values : List JSVal) : CursorConstraint

structure QueryState : Type where
  whereFilter : Option FilterNode
  orderByClauses : List OrderClause
  limitValue : Option Int
  limitToLastValue : Bool
  offsetValue : Option Int
  allDescendants : Bool
  startAtBound : Option CursorConstraint
  endAtBound : Option CursorConstraint

def emptyQuery : QueryState :=
  { whereFilter := none, orderByClauses := [], limitValue := none
    limitToLastValue := false, offsetValue := none, allDescendants := false
    startAtBound := none, endAtBound := none }

def queryWhere (q : QueryState) (f : FilterNode) : QueryState :=
  { q with whereFilter := some (whereCombine q.whereFilter f) }

def queryOrderBy (q : QueryState) (fieldPath : String)
    (direction : OrderDirection) : QueryState :=
  { q with orderByClauses := q.orderByClauses ++ [⟨fieldPath, direction⟩] }

def queryLimit (q : QueryState) (n : Int) : QueryState :=
  { q with limitValue := some n, limitToLastValue := false }

def queryLimitToLast (q : QueryState) (n : Int) : QueryState :=
  { q with limitValue := some n, limitToLastValue := true }

/-- `parseCursorConstraint` (values form): at least one value required. -/
def parseCursorConstraint (inclusive : Bool) (args : List JSVal) :
    Option CursorConstraint :=
  match args with
  | [] => none
  | _ => some (.values inclusive args)

def queryStartAt (q : QueryState) (args : List JSVal) : Option QueryState :=
  (parseCursorConstraint true args).map fun c => { q with startAtBound := some c }

def queryStartAfter (q : QueryState) (args : List JSVal) : Option QueryState :=
  (parseCursorConstraint false args).map fun c => { q with startAtBound := some c }

def queryEndAt (q : QueryState) (args : List JSVal) : Option QueryState :=
  (parseCursorConstraint true args).map fun c => { q with endAtBound := some c }

def queryEndBefore (q : QueryState) (args : List JSVal) : Option QueryState :=
  (parseCursorConstraint false args).map fun c => { q with endAtBound := some c }

/-- `const shouldReverse = this.limitToLastValue && this.limitValue !== null`. -/
def shouldReverse (q : QueryState) : Bool :=
  q.limitToLastValue && q.limitValue.isSome

/-- `const needsOrdering = shouldReverse || startAtBound !== null || endAtBound !== null`. -/
def needsOrdering (q : QueryState) : Bool :=
  shouldReverse q || q.startAtBound.isSome || q.endAtBound.isSome

/-- The ordering-resolution steps of `Query._buildStructuredQueryRequest`
(`firestore.ts` lines 1002-1018): default to `__name__ ASC` when ordering
is needed and absent; append a `__name__` clause inheriting the tail
direction when ordering is needed, clauses exist, and *no* clause
(`!orderByClauses.some(...)`) already references `__name__`. -/
def resolvedOrderByClauses (q : QueryState) : List OrderClause :=
  let obs :=
    if q.orderByClauses.isEmpty && needsOrdering q then
      [⟨"__name__", OrderDirection.asc⟩]
    else q.orderByClauses
  if needsOrdering q && !obs.isEmpty
      && !(obs.any fun e => e.fieldPath == "__name__") then
    obs ++ [⟨"__name__", ((obs.getLast?).map OrderClause.direction).getD .asc⟩]
  else obs

/-- The ordering actually encoded into the structured query: reversed
when `limitToLast` is in effect (`orderByForQuery`). -/
def orderByForQuery (q : QueryState) : List OrderClause :=
  if shouldReverse q then
    (resolvedOrderByClauses q).map fun e =>
      ⟨e.fieldPath, if e.direction = .desc then .asc else .desc⟩
  else resolvedOrderByClauses q

/-! ## Claim C4: explicit ordering for `limitToLast` / cursor queries -/

/-- C4, counterexample.  The claim requires that whenever the *tail*
ordering clause does not end on document identity, an identity clause is
appended.  The code instead tests whether *any* clause references
`__name__`: for the reachable query
`collection.orderBy('__name__').orderBy('a').startAt(1)` the tail clause
is `a`, yet nothing is appended because the head clause already
references `__name__`. -/
theorem resolvedOrderBy_tail_not_name :
    (∃ qs : QueryState,
      queryStartAt
          (queryOrderBy (queryOrderBy emptyQuery "__name__" .asc) "a" .asc)
          [.vNum 1] = some qs ∧
      resolvedOrderByClauses qs = [⟨"__name__", .asc⟩, ⟨"a", .asc⟩]) ∧
    ([⟨"__name__", .asc⟩, ⟨"a", .asc⟩] : List OrderClause)
      ≠ [⟨"__name__", .asc⟩, ⟨"a", .asc⟩, ⟨"__name__", .asc⟩] := by
  exact ⟨⟨_, rfl, rfl⟩, by decide⟩

/-- C4 (amended): for every query state needing an explicit ordering
(`needsOrdering`, i.e. `limitToLast` with its limit — the public
`limitToLast(n)` always sets a limit — or a cursor bound present),
before the `limitToLast` reversal step:
(i) with no `orderBy` clauses the resolved ordering is exactly
`[__name__ ASC]`;
(ii) with clauses present, none of which references `__name__`, an
identity clause inheriting the *last* clause's direction is appended;
(iii) if any clause references `__name__` — even a non-tail one — the
ordering is left unchanged (this is where the claim's "tail" wording
diverges from the code's `some(...)` test). -/
theorem resolvedOrderBy_explicit (q : QueryState)
    (htrig : needsOrdering q = true) :
    (q.orderByClauses = [] →
      resolvedOrderByClauses q = [⟨"__name__", .asc⟩]) ∧
    (q.orderByClauses ≠ [] →
      (∀ e ∈ q.orderByClauses, e.fieldPath ≠ "__name__") →
      resolvedOrderByClauses q
        = q.orderByClauses
            ++ [⟨"__name__",
                ((q.orderByClauses.getLast?).map OrderClause.direction).getD .asc⟩]) ∧
    ((∃ e ∈ q.orderByClauses, e.fieldPath = "__name__") →
      resolvedOrderByClauses q = q.orderByClauses) := by
  refine ⟨?_, ?_, ?_⟩
  · intro hobs
    simp [resolvedOrderByClauses, hobs, htrig]
  · intro hne hnoname
    have hany : (q.orderByClauses.any fun e => e.fieldPath == "__name__") = false := by
      rw [List.any_eq_false]
      intro e he
      simpa using hnoname e he
    simp [resolvedOrderByClauses, htrig, hne, hany, List.isEmpty_iff]
  · intro hsome
    obtain ⟨e, he, hename⟩ := hsome
    have hne : q.orderByClauses ≠ [] := by
      intro h; rw [h] at he; simp at he
    have hany : (q.orderByClauses.any fun e => e.fieldPath == "__name__") = true := by
      rw [List.any_eq_true]
      exact ⟨e, he, by simp [hename]⟩
    simp [resolvedOrderByClauses, htrig, hne, hany, List.isEmpty_iff]

/-- C4, witness: the amended theorem at two concrete reachable queries —
`collection.startAt(1)` resolves to `[__name__ ASC]`, and
`collection.orderBy('a', 'desc').startAt(1)` appends `__name__ DESC`. -/
theorem resolvedOrderBy_explicit_witness :
    resolvedOrderByClauses
        { emptyQuery with startAtBound := some (.values true [.vNum 1]) }
      = [⟨"__name__", .asc⟩] ∧
    resolvedOrderByClauses
        { emptyQuery with
            orderByClauses := [⟨"a", .desc⟩]
            startAtBound := some (.values true [.vNum 1]) }
      = [⟨"a", .desc⟩, ⟨"__name__", .desc⟩] := by
  constructor
  · exact (resolvedOrderBy_explicit
      { emptyQuery with startAtBound := some (.values true [.vNum 1]) } rfl).1 rfl
  · exact (resolvedOrderBy_explicit
      { emptyQuery with
          orderByClauses := [⟨"a", .desc⟩]
          startAtBound := some (.values true [.vNum 1]) } rfl).2.1 (by simp)
      (by intro e he; simp at he; subst he; simp)

/-! ## `Firestore.runTransaction` (`firestore.ts` lines 427-464)

One attempt = `beginTransaction` (a fresh transaction id), run the
caller's function, `commit`.  The model indexes attempts by the attempt
number (1-based): `attempts k` is the outcome of the k-th attempt under
its fresh transaction id — `.ok v` when the caller's function and the
commit succeed with value `v`, `.error (some status)` a thrown
`FirestoreApiError` with that server status, `.error none` any other
thrown error (`apiStatus === null`).  The result pairs the final outcome
with the chronological list of backoff sleeps performed. -/

/-- `apiStatus === 'ABORTED' || 'UNAVAILABLE' || 'DEADLINE_EXCEEDED'`. -/
def retryableTxStatus (apiStatus : Option String) : Bool :=
  apiStatus == some "ABORTED" || apiStatus == some "UNAVAILABLE"
    || apiStatus == some "DEADLINE_EXCEEDED"

/-- `Math.min(1000 * 2 ** (attempt - 1), 10_000)`. -/
def transactionBackoffMs (attempt : Nat) : Nat :=
  min (1000 * 2 ^ (attempt - 1)) 10000

/-- The `while (attempt < maxAttempts)` loop, entered with counter value
`attempt`; on a retryable failure before the cap the loop sleeps
`transactionBackoffMs` and re-runs everything on a fresh transaction id
(the next index of `attempts`).  Falling out of the loop (possible only
when `maxAttempts ≤ attempt` at entry, i.e. `maxAttempts = 0` from the
top) rethrows the null `lastError` as the generic transaction failure,
modelled `.error none`. -/
def runTransactionGo {α : Type} (attempts : Nat → Except (Option String) α)
    (maxAttempts attempt : Nat) : Except (Option String) α × List Nat :=
  if attempt < maxAttempts then
    match attempts (attempt + 1) with
    | .ok v => (.ok v, [])
    | .error e =>
        if retryableTxStatus e = true ∧ attempt + 1 < maxAttempts then
          let r := runTransactionGo attempts maxAttempts (attempt + 1)
          (r.1, transactionBackoffMs (attempt + 1) :: r.2)
        else (.error e, [])
  else (.error none, [])
termination_by maxAttempts - attempt

/-- `runTransaction` with `maxAttempts = options.maxAttempts ?? 5`. -/
def runTransaction {α : Type} (attempts : Nat → Except (Option String) α)
    (maxAttempts : Nat) : Except (Option String) α × List Nat :=
  runTransactionGo attempts maxAttempts 0

theorem runTransactionGo_all_aborted {α : Type}
    (attempts : Nat → Except (Option String) α)
    (h : ∀ k, attempts k = .error (some "ABORTED")) :
    ∀ (n attempt : Nat), 1 ≤ n →
      runTransactionGo attempts (attempt + n) attempt
        = (.error (some "ABORTED"),
           (List.range (n - 1)).map fun k => transactionBackoffMs (attempt + 1 + k)) := by
  intro n
  induction n with
  | zero => intro attempt h1; omega
  | succ n ih =>
      intro attempt _
      rw [runTransactionGo]
      simp only [h (attempt + 1)]
      by_cases hn : n = 0
      · subst hn
        simp [retryableTxStatus]
      · have hrec := ih (attempt + 1) (by omega)
        have harith : attempt + 1 + n = attempt + (n + 1) := by omega
        rw [harith] at hrec
        rw [if_pos (show attempt < attempt + (n + 1) by omega)]
        rw [if_pos (show retryableTxStatus (some "ABORTED") = true ∧
            attempt + 1 < attempt + (n + 1) from
          ⟨by simp [retryableTxStatus], by omega⟩)]
        rw [hrec]
        obtain ⟨n2, rfl⟩ := Nat.exists_eq_succ_of_ne_zero hn
        simp only [Nat.succ_sub_one, Prod.mk.injEq, true_and]
        rw [List.range_succ_eq_map, List.map_cons]
        refine congrArg₂ List.cons (by norm_num) ?_
        rw [List.map_map]
        apply List.map_congr_left
        intro k _
        simp only [Function.comp_apply]
        congr 1
        omega

/-! ## Claim C5: transaction retry with exponential backoff -/

/-- C5: the retry behaviour of `runTransaction`.
(i) An attempt failing `ABORTED` twice and succeeding on the third
invocation returns the third invocation's value (each attempt indexes a
fresh `beginTransaction`), with backoff sleeps 1000 ms then 2000 ms
under the default cap of 5 attempts.
(ii) An attempt failing with any non-retryable status (anything other
than ABORTED/UNAVAILABLE/DEADLINE_EXCEEDED, including non-API errors)
propagates immediately: no retry, no sleep.
(iii) Under the attempt cap `m ≥ 1`, persistent ABORTED failures re-run
the function exactly `m` times and propagate the error after `m - 1`
backoffs whose base delay doubles per attempt, capped at 10 s:
`min(1000·2^k, 10000)` for `k = 0, …, m-2`. -/
theorem runTransaction_retry {α : Type} :
    (∀ (attempts : Nat → Except (Option String) α) (v : α),
      attempts 1 = .error (some "ABORTED") →
      attempts 2 = .error (some "ABORTED") →
      attempts 3 = .ok v →
      runTransaction attempts 5 = (.ok v, [1000, 2000])) ∧
    (∀ (attempts : Nat → Except (Option String) α) (e : Option String)
      (m : Nat), retryableTxStatus e = false → 1 ≤ m →
      attempts 1 = .error e →
      runTransaction attempts m = (.error e, [])) ∧
    (∀ (attempts : Nat → Except (Option String) α) (m : Nat), 1 ≤ m →
      (∀ k, attempts k = .error (some "ABORTED")) →
      runTransaction attempts m
        = (.error (some "ABORTED"),
           (List.range (m - 1)).map fun k => min (1000 * 2 ^ k) 10000)) := by
  refine ⟨?_, ?_, ?_⟩
  · intro attempts v h1 h2 h3
    rw [runTransaction, runTransactionGo]
    simp only [h1, show (0:Nat) < 5 by norm_num, if_true]
    rw [runTransactionGo]
    simp only [h2, show (1:Nat) < 5 by norm_num, if_true]
    rw [runTransactionGo]
    simp only [h3, show (2:Nat) < 5 by norm_num, if_true]
    simp [retryableTxStatus, transactionBackoffMs]
  · intro attempts e m he hm h1
    rw [runTransaction, runTransactionGo]
    simp [show 0 < m by omega, h1, he]
  · intro attempts m hm hall
    have := runTransactionGo_all_aborted attempts hall m 0 hm
    rw [Nat.zero_add] at this
    rw [runTransaction, this]
    refine congrArg _ ?_
    apply List.map_congr_left
    intro k _
    simp [transactionBackoffMs]

/-- C5, witness: the three conjuncts at concrete attempt functions. -/
theorem runTransaction_retry_witness :
    runTransaction
        (fun k => if k < 3 then .error (some "ABORTED") else .ok (k : Int)) 5
      = (.ok 3, [1000, 2000]) ∧
    runTransaction (fun _ => (.error (some "NOT_FOUND") : Except (Option String) Int)) 5
      = (.error (some "NOT_FOUND"), []) ∧
    runTransaction (fun _ => (.error (some "ABORTED") : Except (Option String) Int)) 3
      = (.error (some "ABORTED"), [1000, 2000]) := by
  refine ⟨?_, ?_, ?_⟩
  · exact runTransaction_retry.1 _ 3 rfl rfl rfl
  · exact runTransaction_retry.2.1 _ (some "NOT_FOUND") 5 rfl (by norm_num) rfl
  · have := runTransaction_retry.2.2
      (fun _ => (.error (some "ABORTED") : Except (Option String) Int)) 3
      (by norm_num) (fun k => rfl)
    simpa [List.range_succ] using this

/-! ## BulkWriter queue draining (`firestore.ts`, `class BulkWriter`)

A pending operation is reduced to what `takeBatch` inspects: its
sequence id (`opId`, unique and monotonically increasing at enqueue) and
its target document path (`documentRef.path`).  `takeBatchGo` mirrors
the `takeBatch` loop: scan the queue front to back, stop scanning once
`selected.length` reaches `maxBatchSize` (20), skip — leaving in place —
any operation whose path was already seen, and splice out selected
operations; it returns `(selected, remaining queue)`.  `drainBatches`
mirrors the `processQueue` loop: repeatedly take batches until the queue
is empty (the `batch.length === 0` break is unreachable for a nonempty
queue since its first element is always selected). -/

structure BWOp : Type where
  opId : Nat
  path : String
deriving DecidableEq

def maxBatchSize : Nat := 20

def takeBatchGo (maxSize selCount : Nat) (seen : List String) :
    List BWOp → List BWOp × List BWOp
  | [] => ([], [])
  | op :: rest =>
      if maxSize ≤ selCount then ([], op :: rest)
      else if op.path ∈ seen then
        let r := takeBatchGo maxSize selCount seen rest
        (r.1, op :: r.2)
      else
        let r := takeBatchGo maxSize (selCount + 1) (op.path :: seen) rest
        (op :: r.1, r.2)

def takeBatch (queue : List BWOp) : List BWOp × List BWOp :=
  takeBatchGo maxBatchSize 0 [] queue

theorem takeBatchGo_length (maxSize : Nat) :
    ∀ (q : List BWOp) (selCount : Nat) (seen : List String),
      (takeBatchGo maxSize selCount seen q).1.length
        + (takeBatchGo maxSize selCount seen q).2.length = q.length := by
  intro q
  induction q with
  | nil => intro selCount seen; simp [takeBatchGo]
  | cons op rest ih =>
      intro selCount seen
      by_cases hfull : maxSize ≤ selCount
      · simp [takeBatchGo, hfull]
      · by_cases hseen : op.path ∈ seen
        · have := ih selCount seen
          simp [takeBatchGo, hfull, hseen]
          omega
        · have := ih (selCount + 1) (op.path :: seen)
          simp [takeBatchGo, hfull, hseen]
          omega

theorem takeBatch_first_selected (op : BWOp) (rest : List BWOp) :
    (takeBatch (op :: rest)).1
      = op :: (takeBatchGo maxBatchSize 1 [op.path] rest).1 := by
  simp [takeBatch, takeBatchGo, maxBatchSize]

theorem takeBatch_remaining_lt (op : BWOp) (rest : List BWOp) :
    (takeBatch (op :: rest)).2.length < (op :: rest).length := by
  have hlen := takeBatchGo_length maxBatchSize (op :: rest) 0 []
  have hsel : (takeBatch (op :: rest)).1
      = op :: (takeBatchGo maxBatchSize 1 [op.path] rest).1 :=
    takeBatch_first_selected op rest
  have : 0 < (takeBatch (op :: rest)).1.length := by
    rw [hsel]; simp
  simp only [takeBatch] at *
  omega

def drainBatches : List BWOp → List (List BWOp)
  | [] => []
  | op :: rest =>
      (takeBatch (op :: rest)).1 :: drainBatches (takeBatch (op :: rest)).2
termination_by q => q.length
decreasing_by
  exact takeBatch_remaining_lt op rest

theorem takeBatchGo_sel_length (maxSize : Nat) :
    ∀ (q : List BWOp) (selCount : Nat) (seen : List String),
      selCount ≤ maxSize →
      (takeBatchGo maxSize selCount seen q).1.length + selCount ≤ maxSize := by
  intro q
  induction q with
  | nil => intro selCount seen h; simpa [takeBatchGo]
  | cons op rest ih =>
      intro selCount seen h
      by_cases hfull : maxSize ≤ selCount
      · simp [takeBatchGo, hfull]; omega
      · by_cases hseen : op.path ∈ seen
        · have := ih selCount seen h
          simp [takeBatchGo, hfull, hseen]
          omega
        · have := ih (selCount + 1) (op.path :: seen) (by omega)
          simp [takeBatchGo, hfull, hseen]
          omega

theorem takeBatchGo_sel_paths (maxSize : Nat) :
    ∀ (q : List BWOp) (selCount : Nat) (seen : List String),
      (∀ a ∈ (takeBatchGo maxSize selCount seen q).1, a.path ∉ seen) ∧
      ((takeBatchGo maxSize selCount seen q).1.map BWOp.path).Nodup := by
  intro q
  induction q with
  | nil => intro selCount seen; simp [takeBatchGo]
  | cons op rest ih =>
      intro selCount seen
      by_cases hfull : maxSize ≤ selCount
      · simp [takeBatchGo, hfull]
      · by_cases hseen : op.path ∈ seen
        · have := ih selCount seen
          simpa [takeBatchGo, hfull, hseen] using this
        · have ⟨ih1, ih2⟩ := ih (selCount + 1) (op.path :: seen)
          simp only [takeBatchGo, if_neg hfull, if_neg hseen]
          constructor
          · intro a ha
            rcases List.mem_cons.mp ha with h | h
            · subst h; exact hseen
            · have := ih1 a h
              intro hmem
              exact this (List.mem_cons_of_mem _ hmem)
          · simp only [List.map_cons, List.nodup_cons]
            refine ⟨?_, ih2⟩
            intro hmem
            obtain ⟨a, ha, hap⟩ := List.mem_map.mp hmem
            exact ih1 a ha (by rw [hap]; exact List.mem_cons_self _ _)

theorem takeBatchGo_perm (maxSize : Nat) :
    ∀ (q : List BWOp) (selCount : Nat) (seen : List String),
      ((takeBatchGo maxSize selCount seen q).1
        ++ (takeBatchGo maxSize selCount seen q).2).Perm q := by
  intro q
  induction q with
  | nil => intro selCount seen; simp [takeBatchGo]
  | cons op rest ih =>
      intro selCount seen
      by_cases hfull : maxSize ≤ selCount
      · simp [takeBatchGo, hfull]
      · by_cases hseen : op.path ∈ seen
        · have hperm := ih selCount seen
          simp only [takeBatchGo, if_neg hfull, if_pos hseen]
          exact List.Perm.trans List.perm_middle (hperm.cons op)
        · have hperm := ih (selCount + 1) (op.path :: seen)
          simp only [takeBatchGo, if_neg hfull, if_neg hseen]
          exact hperm.cons op

theorem takeBatchGo_rem_sublist (maxSize : Nat) :
    ∀ (q : List BWOp) (selCount : Nat) (seen : List String),
      (takeBatchGo maxSize selCount seen q).2.Sublist q := by
  intro q
  induction q with
  | nil => intro selCount seen; simp [takeBatchGo]
  | cons op rest ih =>
      intro selCount seen
      by_cases hfull : maxSize ≤ selCount
      · simp [takeBatchGo, hfull]
      · by_cases hseen : op.path ∈ seen
        · simpa [takeBatchGo, hfull, hseen] using (ih selCount seen).cons₂ op
        · simpa [takeBatchGo, hfull, hseen]
            using (ih (selCount + 1) (op.path :: seen)).cons op

theorem takeBatchGo_seen_stays (maxSize : Nat) :
    ∀ (q : List BWOp) (selCount : Nat) (seen : List String) (x : BWOp),
      x ∈ q → x.path ∈ seen → x ∈ (takeBatchGo maxSize selCount seen q).2 := by
  intro q
  induction q with
  | nil => intro selCount seen x hx; simp at hx
  | cons op rest ih =>
      intro selCount seen x hx hxseen
      by_cases hfull : maxSize ≤ selCount
      · simpa [takeBatchGo, hfull] using hx
      · by_cases hseen : op.path ∈ seen
        · simp only [takeBatchGo, if_neg hfull, if_pos hseen]
          rcases List.mem_cons.mp hx with h | h
          · subst h; exact List.mem_cons_self _ _
          · exact List.mem_cons_of_mem _ (ih selCount seen x h hxseen)
        · simp only [takeBatchGo, if_neg hfull, if_neg hseen]
          rcases List.mem_cons.mp hx with h | h
          · subst h; exact absurd hxseen hseen
          · exact ih (selCount + 1) (op.path :: seen) x h
              (List.mem_cons_of_mem _ hxseen)

theorem takeBatchGo_order (maxSize : Nat) :
    ∀ (q : List BWOp) (selCount : Nat) (seen : List String) (a b : BWOp),
      [a, b].Sublist q → a.path = b.path →
      b ∈ (takeBatchGo maxSize selCount seen q).2 ∧
      (a ∈ (takeBatchGo maxSize selCount seen q).1 ∨
        [a, b].Sublist (takeBatchGo maxSize selCount seen q).2) := by
  intro q
  induction q with
  | nil =>
      intro selCount seen a b hsub
      cases hsub
  | cons op rest ih =>
      intro selCount seen a b hsub hpath
      by_cases hfull : maxSize ≤ selCount
      · simp only [takeBatchGo, if_pos hfull]
        exact ⟨hsub.subset (by simp), Or.inr hsub⟩
      · by_cases hseen : op.path ∈ seen
        · simp only [takeBatchGo, if_neg hfull, if_pos hseen]
          cases hsub with
          | cons _ h =>
              obtain ⟨hb, hd⟩ := ih selCount seen a b h hpath
              refine ⟨List.mem_cons_of_mem _ hb, ?_⟩
              rcases hd with hd | hd
              · exact Or.inl hd
              · exact Or.inr (hd.cons op)
          | cons₂ _ h =>
              have hbrest : b ∈ rest := List.singleton_sublist.mp h
              have hbseen : b.path ∈ seen := by rw [← hpath]; exact hseen
              have hbrem := takeBatchGo_seen_stays maxSize rest selCount seen b
                hbrest hbseen
              refine ⟨List.mem_cons_of_mem _ hbrem, Or.inr ?_⟩
              exact (List.singleton_sublist.mpr hbrem).cons₂ _
        · simp only [takeBatchGo, if_neg hfull, if_neg hseen]
          cases hsub with
          | cons _ h =>
              obtain ⟨hb, hd⟩ := ih (selCount + 1) (op.path :: seen) a b h hpath
              refine ⟨hb, ?_⟩
              rcases hd with hd | hd
              · exact Or.inl (List.mem_cons_of_mem _ hd)
              · exact Or.inr hd
          | cons₂ _ h =>
              have hbrest : b ∈ rest := List.singleton_sublist.mp h
              have hbseen : b.path ∈ op.path :: seen := by
                rw [← hpath]; exact List.mem_cons_self _ _
              refine ⟨takeBatchGo_seen_stays maxSize rest (selCount + 1)
                (op.path :: seen) b hbrest hbseen, Or.inl (List.mem_cons_self _ _)⟩

theorem drainBatches_flatten_perm (q : List BWOp) :
    (drainBatches q).flatten.Perm q := by
  induction q using drainBatches.induct with
  | case1 => simp [drainBatches]
  | case2 op rest ih =>
      rw [drainBatches]
      simp only [List.flatten_cons]
      exact List.Perm.trans (List.Perm.append_left (takeBatch (op :: rest)).1 ih)
        (takeBatchGo_perm maxBatchSize (op :: rest) 0 [])

theorem takeBatch_disjoint (q : List BWOp) (hnd : q.Nodup) (x : BWOp)
    (h1 : x ∈ (takeBatch q).1) (h2 : x ∈ (takeBatch q).2) : False := by
  have hperm := takeBatchGo_perm maxBatchSize q 0 []
  have hcount := hperm.count_eq x
  rw [List.count_append] at hcount
  have hc1 : 0 < List.count x (takeBatch q).1 := List.count_pos_iff.mpr h1
  have hc2 : 0 < List.count x (takeBatch q).2 := List.count_pos_iff.mpr h2
  have hle : List.count x q ≤ 1 := List.nodup_iff_count_le_one.mp hnd x
  simp only [takeBatch] at hc1 hc2
  omega

theorem drainBatches_batch_shape :
    ∀ (q : List BWOp), ∀ batch ∈ drainBatches q,
      batch.length ≤ 20 ∧ (batch.map BWOp.path).Nodup := by
  intro q
  induction q using drainBatches.induct with
  | case1 => intro batch h; simp [drainBatches] at h
  | case2 op rest ih =>
      intro batch h
      rw [drainBatches] at h
      rcases List.mem_cons.mp h with h | h
      · subst h
        constructor
        · have := takeBatchGo_sel_length maxBatchSize (op :: rest) 0 []
            (by simp [maxBatchSize])
          simpa [takeBatch, maxBatchSize] using this
        · exact (takeBatchGo_sel_paths maxBatchSize (op :: rest) 0 []).2
      · exact ih batch h

theorem drainBatches_cons (op : BWOp) (rest : List BWOp) :
    drainBatches (op :: rest)
      = (takeBatch (op :: rest)).1 :: drainBatches (takeBatch (op :: rest)).2 := by
  rw [drainBatches]

theorem drainBatches_mem_of_getElem {q : List BWOp} {x : BWOp} {i : Nat}
    {batch : List BWOp} (h : (drainBatches q)[i]? = some batch)
    (hx : x ∈ batch) : x ∈ q := by
  have hbatch : batch ∈ drainBatches q := List.getElem?_mem h
  have hflat : x ∈ (drainBatches q).flatten :=
    List.mem_flatten.mpr ⟨_, hbatch, hx⟩
  exact (drainBatches_flatten_perm q).subset hflat

theorem drainBatches_sameDoc_order :
    ∀ (q : List BWOp), (q.map BWOp.opId).Nodup →
      ∀ (a b : BWOp), [a, b].Sublist q → a.path = b.path →
      ∀ (ka kb : Nat) (batchA batchB : List BWOp),
        (drainBatches q)[ka]? = some batchA →
        (drainBatches q)[kb]? = some batchB →
        a ∈ batchA → b ∈ batchB → ka < kb := by
  intro q
  induction q using drainBatches.induct with
  | case1 =>
      intro _ a b _ _ ka kb batchA batchB hga _ hma _
      simp [drainBatches] at hga
  | case2 op rest ih =>
      intro hnd a b hsub hpath ka kb batchA batchB hga hgb hma hmb
      have hqnd : (op :: rest).Nodup := List.Nodup.of_map _ hnd
      obtain ⟨hbrem, hd⟩ :=
        takeBatchGo_order maxBatchSize (op :: rest) 0 [] a b hsub hpath
      have hbrem2 : b ∈ (takeBatch (op :: rest)).2 := hbrem
      have hremnd : ((takeBatch (op :: rest)).2.map BWOp.opId).Nodup :=
        List.Nodup.sublist
          (List.Sublist.map BWOp.opId
            (takeBatchGo_rem_sublist maxBatchSize (op :: rest) 0 [])) hnd
      have hb_not_sel : b ∉ (takeBatch (op :: rest)).1 := fun h =>
        takeBatch_disjoint (op :: rest) hqnd b h hbrem2
      rw [drainBatches_cons] at hga hgb
      cases kb with
      | zero =>
          exfalso
          apply hb_not_sel
          simp only [List.getElem?_cons_zero, Option.some.injEq] at hgb
          rw [hgb]; exact hmb
      | succ kb2 =>
          rw [List.getElem?_cons_succ] at hgb
          rcases hd with hsel | hremsub
          · cases ka with
            | zero => omega
            | succ ka2 =>
                exfalso
                rw [List.getElem?_cons_succ] at hga
                have harem : a ∈ (takeBatch (op :: rest)).2 :=
                  drainBatches_mem_of_getElem hga hma
                exact takeBatch_disjoint (op :: rest) hqnd a hsel harem
          · have harem : a ∈ (takeBatch (op :: rest)).2 :=
              hremsub.subset (List.mem_cons_self _ _)
            have ha_not_sel : a ∉ (takeBatch (op :: rest)).1 := fun h =>
              takeBatch_disjoint (op :: rest) hqnd a h harem
            cases ka with
            | zero =>
                exfalso
                apply ha_not_sel
                simp only [List.getElem?_cons_zero, Option.some.injEq] at hga
                rw [hga]; exact hma
            | succ ka2 =>
                rw [List.getElem?_cons_succ] at hga
                have := ih hremnd a b hremsub hpath ka2 kb2 batchA batchB
                  hga hgb hma hmb
                omega

/-! ## Claim C6: BulkWriter batch shape and same-document ordering -/

/-- C6: properties of the `takeBatch`/`processQueue` drain.
(i) Every drained batch holds at most `maxBatchSize = 20` operations and
at most one operation per target document path.
(ii) Deferred, not dropped: the concatenation of all drained batches is
a permutation of the queue — a skipped operation reappears in a later
batch and nothing is lost or duplicated.
(iii) For two queued operations on the same document path (the earlier
preceding the later in the queue, queue sequence ids unique), whatever
batches contain them, the earlier operation's batch index is strictly
smaller — the earlier write goes out in an earlier wire batch. -/
theorem bulkWriter_batching :
    (∀ (q : List BWOp), ∀ batch ∈ drainBatches q,
      batch.length ≤ 20 ∧ (batch.map BWOp.path).Nodup) ∧
    (∀ q : List BWOp, (drainBatches q).flatten.Perm q) ∧
    (∀ (q : List BWOp), (q.map BWOp.opId).Nodup →
      ∀ (a b : BWOp), [a, b].Sublist q → a.path = b.path →
      ∀ (ka kb : Nat) (batchA batchB : List BWOp),
        (drainBatches q)[ka]? = some batchA →
        (drainBatches q)[kb]? = some batchB →
        a ∈ batchA → b ∈ batchB → ka < kb) :=
  ⟨drainBatches_batch_shape, drainBatches_flatten_perm, drainBatches_sameDoc_order⟩

/-- C6, witness: the theorem applied to the concrete queue
`[{1,"x"}, {2,"y"}, {3,"x"}]`, which drains to batches
`[[{1,"x"},{2,"y"}], [{3,"x"}]]` — the second `"x"` write is deferred to
the second batch, after the first `"x"` write. -/
theorem bulkWriter_batching_witness :
    drainBatches [⟨1, "x"⟩, ⟨2, "y"⟩, ⟨3, "x"⟩]
        = [[⟨1, "x"⟩, ⟨2, "y"⟩], [⟨3, "x"⟩]] ∧
    ([(⟨1, "x"⟩ : BWOp), ⟨2, "y"⟩].length ≤ 20 ∧
      (([(⟨1, "x"⟩ : BWOp), ⟨2, "y"⟩].map BWOp.path).Nodup)) ∧
    (drainBatches [⟨1, "x"⟩, ⟨2, "y"⟩, ⟨3, "x"⟩]).flatten.Perm
      [⟨1, "x"⟩, ⟨2, "y"⟩, ⟨3, "x"⟩] ∧
    (0 : Nat) < 1 := by
  have heval : drainBatches [⟨1, "x"⟩, ⟨2, "y"⟩, ⟨3, "x"⟩]
      = [[⟨1, "x"⟩, ⟨2, "y"⟩], [⟨3, "x"⟩]] := by
    rw [drainBatches_cons]
    have h1 : takeBatch [⟨1, "x"⟩, ⟨2, "y"⟩, ⟨3, "x"⟩]
        = ([⟨1, "x"⟩, ⟨2, "y"⟩], [⟨3, "x"⟩]) := by
      simp [takeBatch, takeBatchGo, maxBatchSize]
    rw [h1]
    rw [drainBatches_cons]
    have h2 : takeBatch [(⟨3, "x"⟩ : BWOp)] = ([⟨3, "x"⟩], []) := by
      simp [takeBatch, takeBatchGo, maxBatchSize]
    rw [h2]
    rw [drainBatches]
  refine ⟨heval, ?_, bulkWriter_batching.2.1 _, ?_⟩
  · exact bulkWriter_batching.1 [⟨1, "x"⟩, ⟨2, "y"⟩, ⟨3, "x"⟩] [⟨1, "x"⟩, ⟨2, "y"⟩]
      (by rw [heval]; exact List.mem_cons_self _ _)
  · exact bulkWriter_batching.2.2 [⟨1, "x"⟩, ⟨2, "y"⟩, ⟨3, "x"⟩] (by decide)
      ⟨1, "x"⟩ ⟨3, "x"⟩ (by decide) rfl 0 1 [⟨1, "x"⟩, ⟨2, "y"⟩] [⟨3, "x"⟩]
      (by rw [heval]; rfl) (by rw [heval]; rfl) (by decide) (by decide)

/-! ## `FirestoreRestClient.getDocument` and `DocumentReference.get`

`getDocument` (`rest/client.ts` lines 107-125): an HTTP 404 returns
`null` before any error handling; any other non-ok response throws a
`FirestoreApiError`; an ok response parses the document.
`DocumentReference.get` (`firestore.ts` lines 522-534) maps `null` to a
snapshot with `exists: false` and `data: null`, whose `data()` accessor
(`this._data ?? undefined`) then yields `undefined`. -/

structure FSDoc : Type where
  name : String
  fields : FSFields

inductive HttpGetResult : Type where
  | notFound : HttpGetResult
  | ok (doc : FSDoc) : HttpGetResult
  | httpError (status : Nat) (apiStatus : Option String) : HttpGetResult

def getDocument : HttpGetResult → Except (Nat × Option String) (Option FSDoc)
  | .notFound => .ok none
  | .ok doc => .ok (some doc)
  | .httpError status apiStatus => .error (status, apiStatus)

/-- The public `DocumentSnapshot` surface relevant here: `exists` flag
and the decoded data; `snapshotData` is the `data()` accessor
(`this._data ?? undefined`, `none` being JS `undefined`). -/
structure DocumentSnapshotModel : Type where
  path : String
  docExists : Bool
  docData : Option JSFields

def snapshotData (s : DocumentSnapshotModel) : Option JSFields := s.docData

def documentRefGet (path : String) (resp : HttpGetResult) :
    Except (Nat × Option String) DocumentSnapshotModel :=
  match getDocument resp with
  | .error e => .error e
  | .ok none => .ok ⟨path, false, none⟩
  | .ok (some doc) => .ok ⟨path, true, some (decodeDocumentFields doc.fields)⟩

/-! ## Claim C10: a missing document is an ordinary read result -/

/-- C10: for every document path, when the REST layer reports HTTP 404,
`getDocument` resolves with `null` (it does not throw), and
`DocumentReference.get()` resolves successfully with a snapshot whose
`exists` flag is `false` and whose `data()` is `undefined`; only non-404
error statuses throw. -/
theorem documentRefGet_notFound (path : String) :
    getDocument .notFound = .ok none ∧
    documentRefGet path .notFound = .ok ⟨path, false, none⟩ ∧
    (documentRefGet path .notFound).toOption.map snapshotData = some none := by
  exact ⟨rfl, rfl, rfl⟩
